import Mathlib

/-!
Verification of the Skillz MCP server's Skill Registry and Resource
Resolution subsystem (TypeScript sources: `src/utils.ts`, `src/resources.ts`,
`src/registry.ts`, `src/types.ts`).

JavaScript strings are shallowly embedded as `List Char` (abbreviated
`JStr`); each JS string method used by the source is modelled by an
executable Lean function on `JStr`.  Filesystem and archive state are
passed explicitly as oracle structures, so "performs no I/O" becomes
"the result does not depend on the oracle".
-/

/-- A JavaScript string, modelled as its list of characters. -/
abbrev JStr := List Char

/-- Coerce a Lean string literal to the `JStr` model. -/
def js (s : String) : JStr := s.data

/-- The ASCII apostrophe character, used when building diagnostic messages so
that message text matches the source templates exactly. -/
def squo : Char := Char.ofNat 39

namespace Js

/-- Model of `String.prototype.includes`: substring occurrence test. -/
def includes (needle hay : JStr) : Bool :=
  match hay with
  | [] => needle.isEmpty
  | _ :: rest => needle.isPrefixOf hay || includes needle rest

/-- Model of `String.prototype.startsWith`. -/
def startsWith (pre s : JStr) : Bool := pre.isPrefixOf s

/-- Model of `str.split("/")` (single-character separator, no limit). -/
def splitSlash : JStr → List JStr
  | [] => [[]]
  | c :: rest =>
    if c = '/' then [] :: splitSlash rest
    else
      match splitSlash rest with
      | h :: t => (c :: h) :: t
      | [] => [[c]]

/-- Model of `parts.join("/")`. -/
def joinSlash : List JStr → JStr
  | [] => []
  | [x] => x
  | x :: xs => x ++ '/' :: joinSlash xs

/-- The set of characters removed by `String.prototype.trim` (ECMAScript
WhiteSpace and LineTerminator), identified by code point. -/
def isWs (c : Char) : Bool :=
  let n := c.toNat
  n = 32 || n = 9 || n = 10 || n = 13 || n = 11 || n = 12 ||
  n = 0xa0 || n = 0x1680 || (0x2000 ≤ n && n ≤ 0x200a) ||
  n = 0x2028 || n = 0x2029 || n = 0x202f || n = 0x205f ||
  n = 0x3000 || n = 0xfeff

/-- Model of `String.prototype.trim`. -/
def trim (l : JStr) : JStr := (l.dropWhile isWs).rdropWhile isWs

/-- One character of `String.prototype.toLowerCase`.  Only the ASCII case
mapping is modelled; characters outside ASCII are left unchanged (in
`slugify`, the single caller, they are collapsed to hyphens either way). -/
def lowerChar (c : Char) : Char :=
  if 65 ≤ c.toNat && c.toNat ≤ 90 then Char.ofNat (c.toNat + 32) else c

/-- Model of `String.prototype.toLowerCase`, character by character. -/
def toLower (l : JStr) : JStr := l.map lowerChar

end Js

/-! ### `slugify` (src/utils.ts lines 19-26) -/

/-- The character class `[a-zA-Z0-9]` of the `slugify` regular expression,
identified by code point. -/
def isAlnumAscii (c : Char) : Bool :=
  let n := c.toNat
  (97 ≤ n && n ≤ 122) || (65 ≤ n && n ≤ 90) || (48 ≤ n && n ≤ 57)

/-- Worker for `.replace(/[^a-zA-Z0-9]+/g, "-")`.  The flag records whether the
scanner is inside a run of non-alphanumeric characters (a run contributes one
hyphen, emitted at its first character). -/
def collapseGo : Bool → JStr → JStr
  | _, [] => []
  | inRun, c :: rest =>
    if isAlnumAscii c then c :: collapseGo false rest
    else if inRun then collapseGo true rest
    else '-' :: collapseGo true rest

/-- Model of `.replace(/[^a-zA-Z0-9]+/g, "-")`: every maximal run of
non-alphanumeric characters becomes a single hyphen. -/
def collapseNonAlnum (l : JStr) : JStr := collapseGo false l

/-- Model of `.replace(/^-+|-+$/g, "")`: strip leading and trailing hyphens. -/
def trimHyphens (l : JStr) : JStr :=
  (l.dropWhile (fun c => c = '-')).rdropWhile (fun c => c = '-')

/-- Model of `slugify` from `src/utils.ts`: trim, lowercase, collapse runs of
non-alphanumerics to single hyphens, strip leading/trailing hyphens, and fall
back to `"skill"` when the result is empty. -/
def slugify (value : JStr) : JStr :=
  let cleaned := trimHyphens (collapseNonAlnum (Js.toLower (Js.trim value)))
  if cleaned.isEmpty then js ("skill") else cleaned

/-! Characterisation lemmas for `slugify` used by the slug claims. -/

/-- A slug-safe character: ASCII lowercase letter, digit, or hyphen
(identified by code point; 45 is the hyphen). -/
def isSlugChar (c : Char) : Bool :=
  let n := c.toNat
  (97 ≤ n && n ≤ 122) || (48 ≤ n && n ≤ 57) || n = 45

/-- No two adjacent hyphens anywhere in the string. -/
def noDoubleHyphen : JStr → Bool
  | [] => true
  | [_] => true
  | c :: d :: rest => !(c = '-' && d = '-') && noDoubleHyphen (d :: rest)

/-! ### Data model (src/types.ts) -/

/-- A YAML value as produced by `js-yaml`'s `load`, shallowly embedded. -/
inductive Yaml where
  | nullv
  | boolv (b : Bool)
  | numv (n : Int)
  | strv (s : JStr)
  | listv (items : List Yaml)
  | mapv (entries : List (JStr × Yaml))

/-- `SkillMetadata` from src/types.ts. -/
structure SkillMetadata where
  name : JStr
  description : JStr
  license : Option JStr
  allowedTools : List JStr
  extra : List (JStr × Yaml)

/-- `Skill` from src/types.ts.  `zipPath = none` marks a directory-backed
skill; `zipRootPrefix` is the internal archive prefix (empty encodes both the
TS empty string and the absent field, which behave identically under the
source's truthiness checks). -/
structure Skill where
  slug : JStr
  directory : JStr
  instructionsPath : JStr
  metadata : SkillMetadata
  resources : List JStr
  zipPath : Option JStr := none
  zipRootPrefix : JStr := []

/-! ### Resource URIs (src/resources.ts lines 23-39) -/

/-- The characters `encodeURIComponent` leaves unescaped: ASCII alphanumerics
and `- _ . ! ~ * ( )` and the apostrophe (code points given numerically). -/
def unreservedURI (c : Char) : Bool :=
  let n := c.toNat
  (65 ≤ n && n ≤ 90) || (97 ≤ n && n ≤ 122) || (48 ≤ n && n ≤ 57) ||
  n = 45 || n = 95 || n = 46 || n = 33 || n = 126 || n = 42 || n = 39 ||
  n = 40 || n = 41

/-- Uppercase hex digit, as used by `encodeURIComponent` escapes. -/
def hexDigitUpper (n : Nat) : Char :=
  if n < 10 then Char.ofNat (48 + n) else Char.ofNat (55 + n)

/-- UTF-8 encoding of one scalar value. -/
def utf8EncodeChar (c : Char) : List Nat :=
  let n := c.toNat
  if n < 0x80 then [n]
  else if n < 0x800 then [0xc0 + n / 64, 0x80 + n % 64]
  else if n < 0x10000 then [0xe0 + n / 4096, 0x80 + (n / 64) % 64, 0x80 + n % 64]
  else [0xf0 + n / 262144, 0x80 + (n / 4096) % 64, 0x80 + (n / 64) % 64, 0x80 + n % 64]

/-- One `%XX` escape. -/
def percentByte (b : Nat) : JStr := ['%', hexDigitUpper (b / 16), hexDigitUpper (b % 16)]

/-- Model of `encodeURIComponent`: unreserved characters pass through, every
other character becomes the `%XX` escapes of its UTF-8 bytes. -/
def encodeURIComponent (l : JStr) : JStr :=
  l.flatMap fun c =>
    if unreservedURI c then [c] else (utf8EncodeChar c).flatMap percentByte

/-- Model of `.replace(/%2F/g, "/")`, left-to-right and non-overlapping. -/
def replace2F : JStr → JStr
  | '%' :: '2' :: 'F' :: rest => '/' :: replace2F rest
  | c :: rest => c :: replace2F rest
  | [] => []

/-- The fixed `resource://skillz/` scheme-and-authority root. -/
def resourceUriRoot : JStr := js ("resource://skillz/")

/-- Model of `buildResourceUri` from src/resources.ts lines 27-31. -/
def buildResourceUri (skill : Skill) (relativePath : JStr) : JStr :=
  resourceUriRoot ++ encodeURIComponent skill.slug ++
    '/' :: replace2F (encodeURIComponent relativePath)

/-- Model of `getResourceName` from src/resources.ts lines 37-39. -/
def getResourceName (skill : Skill) (relativePath : JStr) : JStr :=
  skill.slug ++ '/' :: relativePath

/-- One hex digit of a `%XX` escape (both cases accepted). -/
def hexVal (c : Char) : Option Nat :=
  let n := c.toNat
  if 48 ≤ n && n ≤ 57 then some (n - 48)
  else if 65 ≤ n && n ≤ 70 then some (n - 55)
  else if 97 ≤ n && n ≤ 102 then some (n - 87)
  else none

/-- Payload of a UTF-8 continuation byte escape, when the two hex digits form
a byte in `[0x80, 0xBF]`. -/
def contVal (h l : Char) : Option Nat :=
  match hexVal h, hexVal l with
  | some hi, some lo =>
    let b := hi * 16 + lo
    if 128 ≤ b && b ≤ 191 then some (b % 64) else none
  | _, _ => none

/-- Parse one `%XX...` escape cluster (1-4 UTF-8 bytes) from the head of the
string, strictly per the ECMAScript `Decode` algorithm: continuation shape,
overlong, surrogate and range checks.  Returns the decoded character and the
remaining string; `none` models a thrown `URIError`. -/
def pctCluster : JStr → Option (Char × JStr)
  | '%' :: h1 :: l1 :: rest1 =>
    match hexVal h1, hexVal l1 with
    | some hi, some lo =>
      let b := hi * 16 + lo
      if b < 0x80 then some (Char.ofNat b, rest1)
      else if 0xc2 ≤ b && b ≤ 0xdf then
        match rest1 with
        | '%' :: h2 :: l2 :: rest2 =>
          match contVal h2 l2 with
          | some x => some (Char.ofNat ((b % 32) * 64 + x), rest2)
          | none => none
        | _ => none
      else if 0xe0 ≤ b && b ≤ 0xef then
        match rest1 with
        | '%' :: h2 :: l2 :: '%' :: h3 :: l3 :: rest3 =>
          match contVal h2 l2, contVal h3 l3 with
          | some x1, some x2 =>
            let n := (b % 16) * 4096 + x1 * 64 + x2
            if 0x800 ≤ n && !(0xd800 ≤ n && n ≤ 0xdfff) then
              some (Char.ofNat n, rest3)
            else none
          | _, _ => none
        | _ => none
      else if 0xf0 ≤ b && b ≤ 0xf4 then
        match rest1 with
        | '%' :: h2 :: l2 :: '%' :: h3 :: l3 :: '%' :: h4 :: l4 :: rest4 =>
          match contVal h2 l2, contVal h3 l3, contVal h4 l4 with
          | some x1, some x2, some x3 =>
            let n := (b % 8) * 262144 + x1 * 4096 + x2 * 64 + x3
            if 0x10000 ≤ n && n ≤ 0x10ffff then
              some (Char.ofNat n, rest4)
            else none
          | _, _, _ => none
        | _ => none
      else none
    | _, _ => none
  | _ => none

/-- Worker for `decodeURIComponent`: characters other than `%` pass through;
a `%` starts an escape cluster handed to `pctCluster`.  Structural recursion
on a fuel argument (a cluster consumes at least one character, so fuel equal
to the string length always suffices); `none` models a thrown `URIError`. -/
def decodeGo : Nat → JStr → Option JStr
  | _, [] => some []
  | 0, _ :: _ => none
  | fuel + 1, c :: rest =>
    if c = '%' then
      match pctCluster (c :: rest) with
      | some (ch, after) => (decodeGo fuel after).map (ch :: ·)
      | none => none
    else (decodeGo fuel rest).map (c :: ·)

/-- Model of `decodeURIComponent`; the error carries the `URIError` message. -/
def decodeURIComponent (l : JStr) : Except JStr JStr :=
  match decodeGo l.length l with
  | some r => Except.ok r
  | none => Except.error (js ("URIError: URI malformed"))

/-- The slug/path extraction performed by `fetchResource` (src/resources.ts
lines 86-105): prefix check, remainder split on `/`, emptiness checks, slug
percent-decoding.  `ok none` models the early error returns, `error` models
the uncaught `URIError` thrown by `decodeURIComponent`. -/
def parseResourceUri (resourceUri : JStr) : Except JStr (Option (JStr × JStr)) :=
  if !(Js.startsWith resourceUriRoot resourceUri) then Except.ok none
  else
    let remainder := resourceUri.drop resourceUriRoot.length
    if remainder.isEmpty then Except.ok none
    else
      match Js.splitSlash remainder with
      | [] => Except.ok none
      | p0 :: ps =>
        if (p0 :: ps).length < 2 || p0.isEmpty || (Js.joinSlash ps).isEmpty then
          Except.ok none
        else
          match decodeURIComponent p0 with
          | Except.error e => Except.error e
          | Except.ok slug => Except.ok (some (slug, Js.joinSlash ps))

/-- A concrete registered skill used to instantiate claims. -/
def demoSkill : Skill :=
  { slug := js ("s")
    directory := js ("/skills/s")
    instructionsPath := js ("/skills/s/SKILL.md")
    metadata :=
      { name := js ("s")
        description := js ("d")
        license := none
        allowedTools := []
        extra := [] }
    resources := [] }

/-! ### Filesystem and archive oracles -/

/-- One archive entry as exposed by JSZip (`zip.files`). -/
structure ZipEntry where
  name : JStr
  dir : Bool
  data : List Nat

/-- An opened archive: the ordered collection of its entries. -/
abbrev Zip := List ZipEntry

/-- Model of `zip.files[name]`: object-key lookup. -/
def zipFind (z : Zip) (n : JStr) : Option ZipEntry :=
  z.find? (fun e => e.name = n)

/-- Filesystem/archive oracle.  Every read `fetchResource` performs goes
through this structure, so a result that is equal for all oracles was reached
without any filesystem or archive access. -/
structure Fs where
  join : JStr → JStr → JStr
  resolvePath : JStr → JStr
  existsSync : JStr → Bool
  isFileSync : JStr → Bool
  readFile : JStr → Except JStr (List Nat)
  readZip : JStr → Except JStr Zip

/-! ### Content classification (src/utils.ts lines 232-296) -/

/-- The Unicode replacement character U+FFFD. -/
def fffd : Char := Char.ofNat 0xfffd

/-- Lower bound of the second byte of a three-byte sequence (WHATWG UTF-8). -/
def lo3 (b : Nat) : Nat := if b = 0xe0 then 0xa0 else 0x80

/-- Upper bound of the second byte of a three-byte sequence (WHATWG UTF-8). -/
def hi3 (b : Nat) : Nat := if b = 0xed then 0x9f else 0xbf

/-- Lower bound of the second byte of a four-byte sequence (WHATWG UTF-8). -/
def lo4 (b : Nat) : Nat := if b = 0xf0 then 0x90 else 0x80

/-- Upper bound of the second byte of a four-byte sequence (WHATWG UTF-8). -/
def hi4 (b : Nat) : Nat := if b = 0xf4 then 0x8f else 0xbf

/-- Worker for Node's `buffer.toString("utf-8")` (WHATWG lossy UTF-8
decoding): invalid sequences become U+FFFD, one replacement per maximal
subpart.  Structural recursion on fuel; every step consumes at least one
byte, so fuel equal to the buffer length always suffices. -/
def utf8LossyGo : Nat → List Nat → JStr
  | _, [] => []
  | 0, _ :: _ => []
  | fuel + 1, b :: rest =>
    if b < 0x80 then Char.ofNat b :: utf8LossyGo fuel rest
    else if 0xc2 ≤ b && b ≤ 0xdf then
      match rest with
      | b2 :: r2 =>
        if 0x80 ≤ b2 && b2 ≤ 0xbf then
          Char.ofNat ((b % 32) * 64 + b2 % 64) :: utf8LossyGo fuel r2
        else fffd :: utf8LossyGo fuel rest
      | [] => [fffd]
    else if 0xe0 ≤ b && b ≤ 0xef then
      match rest with
      | b2 :: r2 =>
        if lo3 b ≤ b2 && b2 ≤ hi3 b then
          match r2 with
          | b3 :: r3 =>
            if 0x80 ≤ b3 && b3 ≤ 0xbf then
              Char.ofNat ((b % 16) * 4096 + (b2 % 64) * 64 + b3 % 64) ::
                utf8LossyGo fuel r3
            else fffd :: utf8LossyGo fuel r2
          | [] => [fffd]
        else fffd :: utf8LossyGo fuel rest
      | [] => [fffd]
    else if 0xf0 ≤ b && b ≤ 0xf4 then
      match rest with
      | b2 :: r2 =>
        if lo4 b ≤ b2 && b2 ≤ hi4 b then
          match r2 with
          | b3 :: r3 =>
            if 0x80 ≤ b3 && b3 ≤ 0xbf then
              match r3 with
              | b4 :: r4 =>
                if 0x80 ≤ b4 && b4 ≤ 0xbf then
                  Char.ofNat ((b % 8) * 262144 + (b2 % 64) * 4096 +
                    (b3 % 64) * 64 + b4 % 64) :: utf8LossyGo fuel r4
                else fffd :: utf8LossyGo fuel r3
              | [] => [fffd]
            else fffd :: utf8LossyGo fuel r2
          | [] => [fffd]
        else fffd :: utf8LossyGo fuel rest
      | [] => [fffd]
    else fffd :: utf8LossyGo fuel rest

/-- Model of Node's `buffer.toString("utf-8")`: total, lossy, never throws. -/
def utf8DecodeLossy (l : List Nat) : JStr := utf8LossyGo l.length l

/-- Strict UTF-8 validity of a byte sequence: the claim's and the spec's
"strict UTF-8 decode succeeds" notion, for comparison with what the code
actually computes. -/
def strictUtf8Valid : List Nat → Bool
  | [] => true
  | b :: rest =>
    if b < 0x80 then strictUtf8Valid rest
    else if 0xc2 ≤ b && b ≤ 0xdf then
      match rest with
      | b2 :: r2 => (0x80 ≤ b2 && b2 ≤ 0xbf) && strictUtf8Valid r2
      | [] => false
    else if 0xe0 ≤ b && b ≤ 0xef then
      match rest with
      | b2 :: b3 :: r3 =>
        (lo3 b ≤ b2 && b2 ≤ hi3 b) && ((0x80 ≤ b3 && b3 ≤ 0xbf) && strictUtf8Valid r3)
      | _ => false
    else if 0xf0 ≤ b && b ≤ 0xf4 then
      match rest with
      | b2 :: b3 :: b4 :: r4 =>
        (lo4 b ≤ b2 && b2 ≤ hi4 b) &&
          ((0x80 ≤ b3 && b3 ≤ 0xbf) && ((0x80 ≤ b4 && b4 ≤ 0xbf) && strictUtf8Valid r4))
      | _ => false
    else false

/-- Model of `isValidUtf8` from src/utils.ts lines 289-296.  The source wraps
`buffer.toString("utf-8")` in try/catch, but in Node that call performs lossy
decoding and never throws, so the catch branch is dead and the function
returns `true` for every buffer. -/
def isValidUtf8 (buffer : List Nat) : Bool :=
  let _ := utf8DecodeLossy buffer
  true

/-- The base64 alphabet. -/
def base64Chars : JStr := js ("ABCDEFGHIJKLMNOPQRSTUVWXYZabcdefghijklmnopqrstuvwxyz0123456789+/")

/-- Model of `encodeBase64` from src/utils.ts lines 272-277
(`Buffer.toString("base64")`). -/
def encodeBase64 : List Nat → JStr
  | [] => []
  | [b1] => [base64Chars.getD (b1 / 4) '=', base64Chars.getD ((b1 % 4) * 16) '=', '=', '=']
  | [b1, b2] => [base64Chars.getD (b1 / 4) '=', base64Chars.getD ((b1 % 4) * 16 + b2 / 16) '=',
      base64Chars.getD ((b2 % 16) * 4) '=', '=']
  | b1 :: b2 :: b3 :: rest =>
    base64Chars.getD (b1 / 4) '=' :: base64Chars.getD ((b1 % 4) * 16 + b2 / 16) '=' ::
      base64Chars.getD ((b2 % 16) * 4 + b3 / 64) '=' :: base64Chars.getD (b3 % 64) '=' ::
      encodeBase64 rest

/-- Model of `path.basename`: the part after the last slash. -/
def basenameOf (l : JStr) : JStr :=
  (l.reverse.takeWhile (fun c => c ≠ '/')).reverse

/-- Model of `path.extname` composed with `getExtension`: the suffix from the
last dot of the basename, empty when there is no dot or the dot is the first
character of the basename. -/
def extnameOf (l : JStr) : JStr :=
  let b := basenameOf l
  let afterDotRev := b.reverse.takeWhile (fun c => c ≠ '.')
  if afterDotRev.length = b.length then []
  else if afterDotRev.length + 1 = b.length then []
  else '.' :: afterDotRev.reverse

/-- The fixed extension table of `detectMimeType` (src/utils.ts lines 234-259). -/
def mimeTypesTable : List (JStr × JStr) :=
  [ (js (".txt"), js ("text/plain"))
  , (js (".md"), js ("text/markdown"))
  , (js (".py"), js ("text/x-python"))
  , (js (".js"), js ("text/javascript"))
  , (js (".ts"), js ("text/typescript"))
  , (js (".json"), js ("application/json"))
  , (js (".yaml"), js ("text/yaml"))
  , (js (".yml"), js ("text/yaml"))
  , (js (".xml"), js ("text/xml"))
  , (js (".html"), js ("text/html"))
  , (js (".css"), js ("text/css"))
  , (js (".sh"), js ("application/x-sh"))
  , (js (".bin"), js ("application/octet-stream"))
  , (js (".dat"), js ("application/octet-stream"))
  , (js (".png"), js ("image/png"))
  , (js (".jpg"), js ("image/jpeg"))
  , (js (".jpeg"), js ("image/jpeg"))
  , (js (".gif"), js ("image/gif"))
  , (js (".svg"), js ("image/svg+xml"))
  , (js (".pdf"), js ("application/pdf")) ]

/-- Model of `detectMimeType` from src/utils.ts. -/
def detectMimeType (filePath : JStr) : Option JStr :=
  let ext := Js.toLower (extnameOf filePath)
  (mimeTypesTable.find? (fun kv => kv.1 = ext)).map (fun kv => kv.2)

/-! ### Resource fetch (src/resources.ts lines 44-199) -/

/-- The resource payload shape returned by `fetchResource` and
`makeErrorResource`. -/
structure ResourcePayload where
  uri : JStr
  name : JStr
  mimeType : Option JStr
  content : JStr
  encoding : JStr
deriving DecidableEq

/-- Model of `makeErrorResource` from src/resources.ts lines 44-71. -/
def makeErrorResource (resourceUri message : JStr) : ResourcePayload :=
  let name :=
    if Js.startsWith resourceUriRoot resourceUri then
      let pathPart := resourceUri.drop resourceUriRoot.length
      if pathPart.isEmpty then js ("invalid resource") else pathPart
    else js ("invalid resource")
  { uri := resourceUri
    name := name
    mimeType := some (js ("text/plain"))
    content := js ("Error: ") ++ message
    encoding := js ("utf-8") }

/-- Model of `registry.get(slug)` as consumed by `fetchResource`: the source
method throws on a missing slug and the caller catches the exception, so the
lookup is modelled as an option. -/
def lookupSlug (registry : List (JStr × Skill)) (slug : JStr) : Option Skill :=
  (registry.find? (fun kv => kv.1 = slug)).map (fun kv => kv.2)

/-- The content read of `fetchResource` (the try-block, src/resources.ts
lines 124-172): archive lookup for zip-backed skills, join/resolve/exists
checks and file read for directory-backed skills.  `Sum.inl` carries the
message of the error payload the block returns or the caught exception
produces; `Sum.inr` carries the raw bytes. -/
def readSkillData (fs : Fs) (skill : Skill) (relPathStr : JStr) :
    Sum JStr (List Nat) :=
  match skill.zipPath with
  | some zp =>
    match fs.readZip zp with
    | Except.error e => Sum.inl (js ("failed to read resource: ") ++ e)
    | Except.ok zip =>
      let zipMemberPath :=
        if skill.zipRootPrefix.isEmpty then relPathStr
        else skill.zipRootPrefix ++ relPathStr
      match zipFind zip zipMemberPath with
      | none => Sum.inl (js ("resource not found: ") ++ relPathStr)
      | some file =>
        if file.dir then Sum.inl (js ("resource not found: ") ++ relPathStr)
        else Sum.inr file.data
  | none =>
    let resourcePath := fs.join skill.directory relPathStr
    if !(Js.startsWith (fs.resolvePath skill.directory) (fs.resolvePath resourcePath)) then
      Sum.inl (js ("invalid path: path traversal not allowed"))
    else if !(fs.existsSync resourcePath) || !(fs.isFileSync resourcePath) then
      Sum.inl (js ("resource not found: ") ++ relPathStr)
    else
      match fs.readFile resourcePath with
      | Except.error e => Sum.inl (js ("failed to read resource: ") ++ e)
      | Except.ok data => Sum.inr data

/-- Model of `fetchResource` from src/resources.ts lines 76-199.  The
`Except.error` case models the one uncaught exception: the `URIError` thrown
by `decodeURIComponent` on a malformed slug escape (line 104 sits outside
every try/catch); all other failures are returned in-band as error payloads,
exactly as in the source. -/
def fetchResource (registry : List (JStr × Skill)) (fs : Fs) (resourceUri : JStr) :
    Except JStr ResourcePayload :=
  if !(Js.startsWith resourceUriRoot resourceUri) then
    Except.ok (makeErrorResource resourceUri
      (js ("unsupported URI prefix. Expected resource://skillz/{skill-slug}/{path}")))
  else
    let remainder := resourceUri.drop resourceUriRoot.length
    if remainder.isEmpty then
      Except.ok (makeErrorResource resourceUri (js ("invalid resource URI format")))
    else
      match Js.splitSlash remainder with
      | [] => Except.ok (makeErrorResource resourceUri (js ("invalid resource URI format")))
      | p0 :: ps =>
        if (p0 :: ps).length < 2 || p0.isEmpty || (Js.joinSlash ps).isEmpty then
          Except.ok (makeErrorResource resourceUri (js ("invalid resource URI format")))
        else
          match decodeURIComponent p0 with
          | Except.error e => Except.error e
          | Except.ok slug =>
            let relPathStr := Js.joinSlash ps
            if Js.includes (js ("..")) relPathStr ||
                Js.startsWith (js ("/")) relPathStr then
              Except.ok (makeErrorResource resourceUri
                (js ("invalid path: path traversal not allowed")))
            else
              match lookupSlug registry slug with
              | none =>
                Except.ok (makeErrorResource resourceUri (js ("skill not found: ") ++ slug))
              | some skill =>
                match readSkillData fs skill relPathStr with
                | Sum.inl msg => Except.ok (makeErrorResource resourceUri msg)
                | Sum.inr data =>
                  let mimeType := detectMimeType relPathStr
                  if isValidUtf8 data then
                    Except.ok
                      { uri := resourceUri
                        name := getResourceName skill relPathStr
                        mimeType := mimeType
                        content := utf8DecodeLossy data
                        encoding := js ("utf-8") }
                  else
                    Except.ok
                      { uri := resourceUri
                        name := getResourceName skill relPathStr
                        mimeType := mimeType
                        content := encodeBase64 data
                        encoding := js ("base64") }

/-- A filesystem oracle on which every read fails: used to show rejected
requests never consult the filesystem. -/
def trivFs : Fs :=
  { join := fun a b => a ++ '/' :: b
    resolvePath := id
    existsSync := fun _ => false
    isFileSync := fun _ => false
    readFile := fun _ => Except.error (js ("ENOENT"))
    readZip := fun _ => Except.error (js ("ENOENT")) }

/-- A filesystem oracle serving the single byte 0xFF (not valid UTF-8) for
every file. -/
def invalidByteFs : Fs :=
  { join := fun a b => a ++ '/' :: b
    resolvePath := id
    existsSync := fun _ => true
    isFileSync := fun _ => true
    readFile := fun _ => Except.ok [255]
    readZip := fun _ => Except.error (js ("ENOENT")) }

/-! ### Front matter extraction (src/utils.ts lines 10-12, 31-43)
The pattern is the anchored regular expression
`^---\s*\n([\s\S]*?)\n---\s*\n([\s\S]*)` with JS backtracking semantics. -/

/-- Match the regex fragment `\s*\n` greedily at the head of the string:
consume through the last newline of the leading whitespace run, returning the
remainder.  (`\s` is the same ECMAScript whitespace class as `trim`.) -/
def matchWsNl : JStr → Option JStr
  | [] => none
  | c :: rest =>
    if Js.isWs c then
      match matchWsNl rest with
      | some r => some r
      | none => if c = '\n' then some rest else none
    else none

/-- Scan for the earliest match of the closing `\n---\s*\n` (the lazy group
`([\s\S]*?)` grows one character at a time).  Returns the group content and
the text after the closing fragment. -/
def searchClose : JStr → Option (JStr × JStr)
  | [] => none
  | c :: rest =>
    if c = '\n' then
      match rest with
      | '-' :: '-' :: '-' :: r2 =>
        match matchWsNl r2 with
        | some body => some ([], body)
        | none => (searchClose rest).map (fun pr => (c :: pr.1, pr.2))
      | _ => (searchClose rest).map (fun pr => (c :: pr.1, pr.2))
    else (searchClose rest).map (fun pr => (c :: pr.1, pr.2))

/-- Backtracking helper: the whitespace characters strictly between the
second-to-last and the last newline of the leading whitespace run, when that
run contains at least two newlines. -/
def wsSecondNl (l : JStr) : Option JStr :=
  let w := l.takeWhile Js.isWs
  let w0 := (w.rdropWhile (fun c => c ≠ '\n')).dropLast
  if w0.any (fun c => c = '\n') then
    some ((w0.reverse.takeWhile (fun c => c ≠ '\n')).reverse)
  else none

/-- Model of `FRONT_MATTER_PATTERN.exec(content)`: `some (frontMatter, body)`
on a match, `none` otherwise.  The greedy opening `\s*\n` consumes through
the last newline of the whitespace run after the opening `---`; if no closing
is found from there, the regex backtracks to the previous newline, which can
only succeed when the closing `---` follows that last newline immediately. -/
def fmMatch (content : JStr) : Option (JStr × JStr) :=
  match content with
  | '-' :: '-' :: '-' :: rest =>
    match matchWsNl rest with
    | none => none
    | some g1start =>
      match searchClose g1start with
      | some pr => some pr
      | none =>
        match g1start with
        | '-' :: '-' :: '-' :: afterDashes =>
          match wsSecondNl rest with
          | none => none
          | some mid =>
            match matchWsNl afterDashes with
            | some body => some (mid, body)
            | none => none
        | _ => none
  | _ => none

/-! ### JS value semantics for `js-yaml` results -/

/-- JS truthiness of a `js-yaml` value (NaN is not modelled). -/
def yamlTruthy : Yaml → Bool
  | Yaml.nullv => false
  | Yaml.boolv b => b
  | Yaml.numv n => !(n = 0)
  | Yaml.strv s => !s.isEmpty
  | Yaml.listv _ => true
  | Yaml.mapv _ => true

/-- Model of `data || {}`. -/
def effData (v : Yaml) : Yaml :=
  if yamlTruthy v then v else Yaml.mapv []

/-- `typeof data === "object"` (arrays included; `null` cannot reach the
check because `|| {}` replaced every falsy value). -/
def yamlIsObject : Yaml → Bool
  | Yaml.mapv _ => true
  | Yaml.listv _ => true
  | Yaml.nullv => true
  | _ => false

/-- `typeof` of a value, for the mapping-error message. -/
def typeofStr : Yaml → JStr
  | Yaml.strv _ => js ("string")
  | Yaml.numv _ => js ("number")
  | Yaml.boolv _ => js ("boolean")
  | _ => js ("object")

/-- A mapping proper (the claim's "key-value mapping"). -/
def yamlIsMapping : Yaml → Bool
  | Yaml.mapv _ => true
  | _ => false

mutual

/-- Model of JS `String(value)` on a `js-yaml` value. -/
def jsStringOf : Yaml → JStr
  | Yaml.nullv => js ("null")
  | Yaml.boolv b => if b then js ("true") else js ("false")
  | Yaml.numv n => (ToString.toString n).data
  | Yaml.strv s => s
  | Yaml.listv items => jsStringOfList items
  | Yaml.mapv _ => js ("[object Object]")

/-- `Array.prototype.toString`: elements stringified (null becomes empty)
and joined with commas. -/
def jsStringOfList : List Yaml → JStr
  | [] => []
  | [v] => jsStringOfElem v
  | v :: rest => jsStringOfElem v ++ ',' :: jsStringOfList rest

/-- One array element under `Array.prototype.toString`. -/
def jsStringOfElem : Yaml → JStr
  | Yaml.nullv => []
  | Yaml.boolv b => if b then js ("true") else js ("false")
  | Yaml.numv n => (ToString.toString n).data
  | Yaml.strv s => s
  | Yaml.listv items => jsStringOfList items
  | Yaml.mapv _ => js ("[object Object]")

end

/-- Property access `data[key]` on a `js-yaml` value; `nullv` stands for the
JS `undefined` of a missing key or a non-object base (both falsy). -/
def yamlField (d : Yaml) (key : JStr) : Yaml :=
  match d with
  | Yaml.mapv entries =>
    match entries.find? (fun kv => kv.1 = key) with
    | some kv => kv.2
    | none => Yaml.nullv
  | _ => Yaml.nullv

/-- Model of `String(data[key] || "").trim()`. -/
def strField (d : Yaml) (key : JStr) : JStr :=
  let v := yamlField d key
  Js.trim (if yamlTruthy v then jsStringOf v else [])

/-- Model of `data["allowed-tools"] || data.allowed_tools ||
data["allowed-tools"] || []` (the duplicate kebab-case lookup mirrors the
source). -/
def allowedRaw (d : Yaml) : Yaml :=
  let a1 := yamlField d (js ("allowed-tools"))
  if yamlTruthy a1 then a1
  else
    let a2 := yamlField d (js ("allowed_tools"))
    if yamlTruthy a2 then a2
    else
      let a3 := yamlField d (js ("allowed-tools"))
      if yamlTruthy a3 then a3 else Yaml.listv []

/-- Model of `str.split(",")`. -/
def splitComma : JStr → List JStr
  | [] => [[]]
  | c :: rest =>
    if c = ',' then [] :: splitComma rest
    else
      match splitComma rest with
      | h :: t => (c :: h) :: t
      | [] => [[c]]

/-- The allowed-tools normalization of `parseSkillMd` (src/utils.ts lines
85-95): a comma-separated string is split and trimmed, a sequence is
stringified and trimmed, anything else yields the empty list. -/
def parseAllowedTools (allowed : Yaml) : List JStr :=
  match allowed with
  | Yaml.strv s =>
    ((splitComma s).map Js.trim).filter (fun part => !part.isEmpty)
  | Yaml.listv items =>
    (items.map (fun item => Js.trim (jsStringOf item))).filter (fun item => !item.isEmpty)
  | _ => []

/-- The keys not copied into `extra` (src/utils.ts lines 100-107). -/
def reservedKeys : List JStr :=
  [js ("name"), js ("description"), js ("license"), js ("allowed-tools"), js ("allowed_tools")]

/-- The extra-field collection of `parseSkillMd` (src/utils.ts lines 97-111). -/
def extraOf (d : Yaml) : List (JStr × Yaml) :=
  match d with
  | Yaml.mapv entries => entries.filter (fun kv => !(decide (kv.1 ∈ reservedKeys)))
  | _ => []

/-- Model of `data.license ? String(data.license).trim() : undefined`. -/
def licenseOf (d : Yaml) : Option JStr :=
  let v := yamlField d (js ("license"))
  if yamlTruthy v then some (Js.trim (jsStringOf v)) else none

/-- `ParsedSkillMd` from src/types.ts. -/
structure ParsedSkillMd where
  metadata : SkillMetadata
  body : JStr

/-- The `filePath || "SKILL.md"` label used in every diagnostic message. -/
def sourceLabel (filePath : Option JStr) : JStr :=
  match filePath with
  | some fp => if fp.isEmpty then js ("SKILL.md") else fp
  | none => js ("SKILL.md")

/-- The type of the `js-yaml` `load` oracle: the library is shallowly
embedded as an arbitrary function from the front-matter text to a YAML value
or a thrown error. -/
abbrev YamlLoader := JStr → Except JStr Yaml

/-- Model of `parseSkillMd` from src/utils.ts lines 31-125, parameterised by
the `js-yaml` oracle.  `Except.error` carries the `SkillValidationError`
message. -/
def parseSkillMd (yamlLoad : YamlLoader) (content : JStr)
    (filePath : Option JStr) : Except JStr ParsedSkillMd :=
  let label := sourceLabel filePath
  match fmMatch content with
  | none =>
    Except.error (label ++ js (" must begin with YAML front matter delimited by ") ++
      [squo] ++ js ("---") ++ [squo] ++ js ("."))
  | some (frontMatter, body) =>
    match yamlLoad frontMatter with
    | Except.error e =>
      Except.error (js ("Unable to parse YAML in ") ++ label ++ js (": ") ++ e)
    | Except.ok v =>
      let data := effData v
      if !(yamlIsObject data) then
        Except.error (js ("Front matter in ") ++ label ++
          js (" must define a mapping, not ") ++ typeofStr data ++ js ("."))
      else
        let name := strField data (js ("name"))
        let description := strField data (js ("description"))
        if name.isEmpty then
          Except.error (js ("Front matter in ") ++ label ++ js (" is missing ") ++
            [squo] ++ js ("name") ++ [squo] ++ js ("."))
        else if description.isEmpty then
          Except.error (js ("Front matter in ") ++ label ++ js (" is missing ") ++
            [squo] ++ js ("description") ++ [squo] ++ js ("."))
        else
          Except.ok
            { metadata :=
                { name := name
                  description := description
                  license := licenseOf data
                  allowedTools := parseAllowedTools (allowedRaw data)
                  extra := extraOf data }
              body := body.dropWhile Js.isWs }

/-- Model of `str.split("\n")`, for the concrete YAML oracle. -/
def splitNl : JStr → List JStr
  | [] => [[]]
  | c :: rest =>
    if c = '\n' then [] :: splitNl rest
    else
      match splitNl rest with
      | h :: t => (c :: h) :: t
      | [] => [[c]]

/-- Parse one plain `key: value` line. -/
def simpleYamlLine (l : JStr) : Option (JStr × Yaml) :=
  let key := l.takeWhile (fun c => c ≠ ':')
  match l.dropWhile (fun c => c ≠ ':') with
  | ':' :: v => some (Js.trim key, Yaml.strv (Js.trim v))
  | _ => none

/-- A concrete `js-yaml` oracle for witnesses: it handles exactly the plain
one-level `key: value` documents used in the concrete instances (on which it
agrees with `js-yaml`, which parses such plain scalars as strings). -/
def simpleYamlLoad : YamlLoader := fun fm =>
  let lines := (splitNl fm).filter (fun l => !(Js.trim l).isEmpty)
  match lines.mapM simpleYamlLine with
  | some entries => Except.ok (Yaml.mapv entries)
  | none => Except.error (js ("YAMLException: bad indentation"))

/-! ### Skill registry (src/registry.ts) -/

/-- The two lookup indexes of `SkillRegistry` (`skillsBySlug`, `skillsByName`),
modelled as insertion-ordered association lists (JS `Map` semantics: `set` on
a fresh key appends). -/
structure RegState where
  bySlug : List (JStr × Skill)
  byName : List (JStr × Skill)

/-- The registry right after `load()` clears both maps. -/
def emptyRegistry : RegState := { bySlug := [], byName := [] }

/-- Model of `Map.prototype.has`. -/
def hasKey (m : List (JStr × Skill)) (k : JStr) : Bool :=
  m.any (fun kv => kv.1 = k)

/-- `Map.prototype.values()` of `skillsBySlug` — the registered skills in
insertion order (the `skills` getter of the source). -/
def registrySkills (st : RegState) : List Skill :=
  st.bySlug.map (fun kv => kv.2)

/-- The registration step shared verbatim by `registerDirSkill` (lines
114-127, 147-148) and `tryRegisterZipSkill` (lines 209-222, 235-236): derive
the slug, reject on a duplicate slug, reject on a duplicate raw name,
otherwise insert into both indexes. -/
def registerSkill (st : RegState) (metaName : JStr) (mk : JStr → Skill) : RegState :=
  let slug := slugify metaName
  if hasKey st.bySlug slug then st
  else if hasKey st.byName metaName then st
  else
    let skill := mk slug
    { bySlug := st.bySlug ++ [(slug, skill)]
      byName := st.byName ++ [(metaName, skill)] }

/-- One successfully parsed discovery candidate (directory- or zip-backed),
as it reaches the duplicate checks. -/
structure SkillCandidate where
  metadata : SkillMetadata
  directory : JStr
  instructionsPath : JStr
  resources : List JStr
  zipPath : Option JStr
  zipRootPrefix : JStr

/-- The skill a candidate becomes, once assigned its slug. -/
def candidateSkill (c : SkillCandidate) (slug : JStr) : Skill :=
  { slug := slug
    directory := c.directory
    instructionsPath := c.instructionsPath
    metadata := c.metadata
    resources := c.resources
    zipPath := c.zipPath
    zipRootPrefix := c.zipRootPrefix }

/-- Registration of one candidate. -/
def registerCandidate (st : RegState) (c : SkillCandidate) : RegState :=
  registerSkill st c.metadata.name (candidateSkill c)

/-- A whole `load()` pass over the sequence of successfully parsed candidates
its scan discovers, in discovery order, starting from the cleared registry. -/
def loadCandidates (cands : List SkillCandidate) : RegState :=
  cands.foldl registerCandidate emptyRegistry

/-- The registry invariant maintained by registration. -/
def RegInv (st : RegState) : Prop :=
  (st.bySlug.map (fun kv => kv.1)).Nodup ∧
  (st.byName.map (fun kv => kv.1)).Nodup ∧
  st.byName.map (fun kv => kv.1) = st.bySlug.map (fun kv => kv.2.metadata.name) ∧
  st.bySlug.map (fun kv => kv.1) = st.bySlug.map (fun kv => kv.2.slug)

instance : Nonempty Skill := ⟨demoSkill⟩

/-- The candidate form of the demo skill. -/
def demoCandidate : SkillCandidate :=
  { metadata := demoSkill.metadata
    directory := js ("/skills/s")
    instructionsPath := js ("/skills/s/SKILL.md")
    resources := []
    zipPath := none
    zipRootPrefix := [] }

/-! ### Archive registration (src/registry.ts tryRegisterZipSkill) -/

/-- Non-directory entry names of an archive (`files` in the source). -/
def filesOf (zip : Zip) : List JStr :=
  (zip.filter (fun e => !e.dir)).map (fun e => e.name)

/-- Stable de-duplication (JS `Set` insertion semantics). -/
def dedupGo (seen : List JStr) : List JStr → List JStr
  | [] => []
  | x :: rest =>
    if seen.contains x then dedupGo seen rest
    else x :: dedupGo (x :: seen) rest

/-- The distinct first path segments of archive entry names containing a
slash, in insertion order (`topLevelDirs` in the source; note it ranges over
all entries, directories included, but only those whose name contains `/`). -/
def topLevelDirs (zip : Zip) : List JStr :=
  dedupGo []
    (((zip.map (fun e => e.name)).filter (fun n => n.contains '/')).map
      (fun n => n.takeWhile (fun c => c ≠ '/')))

/-- Where `tryRegisterZipSkill` locates SKILL.md: at the archive root (empty
internal prefix), or directly inside the unique top-level directory of the
slash-containing entry names (prefix `topdir/`); `none` means the archive is
skipped. -/
def zipSkillMdLocation (zip : Zip) : Option (JStr × JStr) :=
  let files := filesOf zip
  if files.contains (js ("SKILL.md")) then some (js ("SKILL.md"), [])
  else
    match topLevelDirs zip with
    | [topDir] =>
      let candidate := topDir ++ '/' :: js ("SKILL.md")
      if files.contains candidate then some (candidate, topDir ++ ['/'])
      else none
    | _ => none

/-- Model of `path.dirname`. -/
def dirnameOf (l : JStr) : JStr :=
  ((l.rdropWhile (fun c => c ≠ '/')).dropLast)

/-- Model of `tryRegisterZipSkill` from src/registry.ts lines 157-243,
parameterised by the `js-yaml` oracle; the archive bytes arrive through the
same `Except` used for every thrown read error (the whole body is inside
try/catch, so every failure leaves the registry unchanged).  `path.resolve`
is modelled as the identity (paths in the model are already absolute). -/
def tryRegisterZipSkill (yamlLoad : YamlLoader) (st : RegState)
    (zipData : Except JStr Zip) (zipPath : JStr) : RegState :=
  match zipData with
  | Except.error _ => st
  | Except.ok zip =>
    match zipSkillMdLocation zip with
    | none => st
    | some (skillMdPath, zipRootPrefix) =>
      match zipFind zip skillMdPath with
      | none => st
      | some entry =>
        let skillMdText := utf8DecodeLossy entry.data
        match parseSkillMd yamlLoad skillMdText (some skillMdPath) with
        | Except.error _ => st
        | Except.ok parsed =>
          registerSkill st parsed.metadata.name (fun slug =>
            { slug := slug
              directory := dirnameOf zipPath
              instructionsPath := zipPath
              metadata := parsed.metadata
              resources := []
              zipPath := some zipPath
              zipRootPrefix := zipRootPrefix })

/-- Raw text of the SKILL.md carried by the counterexample archive. -/
def czipContent : JStr := js ("---\nname: x\ndescription: y\n---\nBody")

/-- A counterexample archive: SKILL.md inside top-level directory `a`, plus a
loose file `b.txt` at the archive root (so no top-level directory is common
to all entries). -/
def czip : Zip :=
  [ { name := js ("a/SKILL.md"), dir := false, data := czipContent.flatMap utf8EncodeChar }
  , { name := js ("b.txt"), dir := false, data := [] } ]

/-! ### Discovery traversal (src/registry.ts scanDirectory, src/utils.ts isZipFile) -/

/-- A filesystem node for the discovery scan. -/
inductive Entry where
  | file (name : JStr) (data : List Nat)
  | dir (name : JStr) (children : List Entry)

/-- The name of a node (one `readdirSync` result string). -/
def entryName : Entry → JStr
  | Entry.file n _ => n
  | Entry.dir n _ => n

/-- Resolve one `readdirSync` name against the directory contents (the
`statSync`-based `isDirectory`/`isFile` dispatch of the source). -/
def findEntry (entries : List Entry) (n : JStr) : Option Entry :=
  entries.find? (fun e => entryName e = n)

/-- Model of `isZipFile` from src/utils.ts lines 264-267. -/
def isZipFile (filePath : JStr) : Bool :=
  let ext := Js.toLower (extnameOf filePath)
  ext = js (".zip") || ext = js (".skill")

/-- Model of `path.join(directory, entry)` for the plain names `readdirSync`
yields (no normalization is ever triggered by them). -/
def joinP (a b : JStr) : JStr := a ++ '/' :: b

/-- `existsSync(skillMdPath) && isFile(skillMdPath)` for the fixed metadata
filename, against the directory contents. -/
def hasSkillMdFile (entries : List Entry) : Bool :=
  match findEntry entries (js ("SKILL.md")) with
  | some (Entry.file _ _) => true
  | _ => false

/-- UTF-16 code units of one character (surrogate pair above U+FFFF). -/
def utf16Units (c : Char) : List Nat :=
  if c.toNat < 0x10000 then [c.toNat]
  else [0xd800 + (c.toNat - 0x10000) / 1024, 0xdc00 + (c.toNat - 0x10000) % 1024]

/-- Lexicographic order on code-unit sequences. -/
def lexLeN : List Nat → List Nat → Bool
  | [], _ => true
  | _ :: _, [] => false
  | a :: xs, b :: ys => if a < b then true else if b < a then false else lexLeN xs ys

/-- The default `Array.prototype.sort` comparator: case-sensitive comparison
by UTF-16 code units. -/
def jsStrLe (a b : JStr) : Bool :=
  lexLeN (a.flatMap utf16Units) (b.flatMap utf16Units)

/-- Insert into a sorted list. -/
def insertSorted (a : JStr) : List JStr → List JStr
  | [] => [a]
  | b :: bs => if jsStrLe a b then a :: b :: bs else b :: insertSorted a bs

/-- Model of `entries.sort()` (insertion sort; `readdirSync` names are
pairwise distinct, so any comparison sort produces this unique sorted
arrangement). -/
def sortNames : List JStr → List JStr
  | [] => []
  | a :: rest => insertSorted a (sortNames rest)

/-- One observable action of the scan: treating a directory as a
directory-backed skill candidate, or attempting to register an archive. -/
inductive ScanEvent where
  | dirSkill (path : JStr)
  | zipTry (path : JStr)
deriving DecidableEq

/-- The first loop of `scanDirectory` (lines 87-92): walk the sorted names,
recursing into each directory. -/
def dirsLoop (rec : JStr → List Entry → List ScanEvent) (directory : JStr)
    (entries : List Entry) : List JStr → List ScanEvent
  | [] => []
  | n :: ns =>
    (match findEntry entries n with
     | some (Entry.dir _ ch2) => rec (joinP directory n) ch2
     | _ => []) ++ dirsLoop rec directory entries ns

/-- The second loop of `scanDirectory` (lines 95-100): walk the sorted names
again, attempting archive registration for each zip-suffixed file. -/
def zipsLoop (directory : JStr) (entries : List Entry) : List JStr → List ScanEvent
  | [] => []
  | n :: ns =>
    (match findEntry entries n with
     | some (Entry.file _ _) =>
       if isZipFile (joinP directory n) then [ScanEvent.zipTry (joinP directory n)]
       else []
     | _ => []) ++ zipsLoop directory entries ns

/-- Model of `scanDirectory` from src/registry.ts lines 68-101, as the trace
of registration events it performs.  Structural recursion on fuel (each
recursion step descends one directory level, so fuel bounding the tree depth
suffices; `scanDirectory` below supplies `sizeOf`, a bound on the depth). -/
def scanGo : Nat → JStr → List Entry → List ScanEvent
  | 0, _, _ => []
  | fuel + 1, directory, entries =>
    if hasSkillMdFile entries then [ScanEvent.dirSkill directory]
    else
      dirsLoop (scanGo fuel) directory entries (sortNames (entries.map entryName)) ++
        zipsLoop directory entries (sortNames (entries.map entryName))

mutual

/-- Size of a filesystem node (a bound on its depth, used as scan fuel). -/
def entrySize : Entry → Nat
  | Entry.file _ _ => 1
  | Entry.dir _ children => 1 + entriesSize children

/-- Total size of a directory listing. -/
def entriesSize : List Entry → Nat
  | [] => 0
  | e :: rest => entrySize e + entriesSize rest

end

/-- The scan of a whole root directory. -/
def scanDirectory (directory : JStr) (entries : List Entry) : List ScanEvent :=
  scanGo (entriesSize entries + 1) directory entries

/-- A concrete directory listing for the witness: two skill directories and a
sibling archive. -/
def demoEntries : List Entry :=
  [ Entry.dir (js ("b")) [Entry.file (js ("SKILL.md")) []]
  , Entry.file (js ("a.zip")) []
  , Entry.dir (js ("a")) [Entry.file (js ("SKILL.md")) []] ]

theorem noDoubleHyphen_cons {c : Char} {l : JStr} (h : noDoubleHyphen (c :: l) = true) :
    noDoubleHyphen l = true := by
  cases l with
  | nil => rfl
  | cons d t =>
    simp only [noDoubleHyphen, Bool.and_eq_true] at h
    exact h.2

theorem dropWhile_eq_cons_not {α : Type} {p : α → Bool} :
    ∀ {l : List α} {a : α} {t : List α}, l.dropWhile p = a :: t → p a = false := by
  intro l
  induction l with
  | nil => intro a t h; simp [List.dropWhile] at h
  | cons b rest ih =>
    intro a t h
    rw [List.dropWhile_cons] at h
    split at h
    · exact ih h
    · cases h
      rename_i hb
      exact Bool.of_not_eq_true hb

theorem char_eq_of_toNat_eq {c d : Char} (h : c.toNat = d.toNat) : c = d := by
  have h1 : Char.ofNat c.toNat = Char.ofNat d.toNat := by rw [h]
  rwa [Char.ofNat_toNat, Char.ofNat_toNat] at h1

theorem isSlugChar_not_ws {c : Char} (h : isSlugChar c = true) : Js.isWs c = false := by
  simp only [isSlugChar, Bool.or_eq_true, Bool.and_eq_true, decide_eq_true_eq] at h
  simp only [Js.isWs, Bool.or_eq_false_iff, Bool.and_eq_false_iff, decide_eq_false_iff_not,
    not_le]
  omega

theorem isSlugChar_hyphen : isSlugChar '-' = true := by decide

theorem mem_collapseGo_cases {c : Char} {f : Bool} {l : JStr} (h : c ∈ collapseGo f l) :
    c = '-' ∨ (isAlnumAscii c = true ∧ c ∈ l) := by
  induction l generalizing f with
  | nil => simp [collapseGo] at h
  | cons d rest ih =>
    rw [collapseGo] at h
    by_cases hd : isAlnumAscii d = true
    · rw [if_pos hd] at h
      rcases List.mem_cons.mp h with h1 | h2
      · subst h1; exact Or.inr ⟨hd, List.mem_cons_self _ _⟩
      · rcases ih h2 with h3 | ⟨h3, h4⟩
        · exact Or.inl h3
        · exact Or.inr ⟨h3, List.mem_cons_of_mem _ h4⟩
    · rw [if_neg hd] at h
      cases f with
      | true =>
        rw [if_pos rfl] at h
        rcases ih h with h3 | ⟨h3, h4⟩
        · exact Or.inl h3
        · exact Or.inr ⟨h3, List.mem_cons_of_mem _ h4⟩
      | false =>
        simp only [Bool.false_eq_true, if_false] at h
        rcases List.mem_cons.mp h with h1 | h2
        · exact Or.inl h1
        · rcases ih h2 with h3 | ⟨h3, h4⟩
          · exact Or.inl h3
          · exact Or.inr ⟨h3, List.mem_cons_of_mem _ h4⟩

theorem lowerChar_not_upper (d : Char) :
    ¬(65 ≤ (Js.lowerChar d).toNat ∧ (Js.lowerChar d).toNat ≤ 90) := by
  unfold Js.lowerChar
  by_cases h : (65 ≤ d.toNat && d.toNat ≤ 90) = true
  · rw [if_pos h]
    simp only [Bool.and_eq_true, decide_eq_true_eq] at h
    have hvalid : (d.toNat + 32).isValidChar := Or.inl (by omega)
    have : (Char.ofNat (d.toNat + 32)).toNat = d.toNat + 32 := by
      unfold Char.ofNat
      rw [dif_pos hvalid]
      rfl
    rw [this]
    omega
  · rw [if_neg h]
    simp only [Bool.and_eq_true, decide_eq_true_eq, not_and, not_le] at h
    omega

theorem slugChar_of_mem_collapse_lower {c : Char} {x : JStr}
    (h : c ∈ collapseNonAlnum (Js.toLower x)) : isSlugChar c = true := by
  rcases mem_collapseGo_cases h with h1 | ⟨h1, h2⟩
  · subst h1; exact isSlugChar_hyphen
  · rcases List.mem_map.mp h2 with ⟨d, _, hd⟩
    subst hd
    have hup := lowerChar_not_upper d
    simp only [isAlnumAscii, Bool.or_eq_true, Bool.and_eq_true, decide_eq_true_eq] at h1
    simp only [isSlugChar, Bool.or_eq_true, Bool.and_eq_true, decide_eq_true_eq]
    omega

theorem noDoubleHyphen_cons_alnum {c : Char} {l : JStr} (hc : isAlnumAscii c = true)
    (h : noDoubleHyphen l = true) : noDoubleHyphen (c :: l) = true := by
  have hne : c ≠ '-' := by
    intro he
    subst he
    exact absurd hc (by decide)
  cases l with
  | nil => rfl
  | cons d t =>
    simp only [noDoubleHyphen, Bool.and_eq_true, Bool.not_eq_true']
    refine ⟨?_, h⟩
    simp [hne]

theorem collapseGo_true_head {l : JStr} {c : Char} {t : JStr}
    (h : collapseGo true l = c :: t) : isAlnumAscii c = true := by
  induction l with
  | nil => simp [collapseGo] at h
  | cons d rest ih =>
    rw [collapseGo] at h
    by_cases hd : isAlnumAscii d = true
    · rw [if_pos hd] at h
      cases h
      exact hd
    · rw [if_neg hd, if_pos rfl] at h
      exact ih h

theorem noDoubleHyphen_collapseGo (f : Bool) (l : JStr) :
    noDoubleHyphen (collapseGo f l) = true := by
  induction l generalizing f with
  | nil => rfl
  | cons c rest ih =>
    rw [collapseGo]
    by_cases hc : isAlnumAscii c = true
    · rw [if_pos hc]
      exact noDoubleHyphen_cons_alnum hc (ih false)
    · rw [if_neg hc]
      cases f with
      | true => rw [if_pos rfl]; exact ih true
      | false =>
        simp only [Bool.false_eq_true, if_false]
        cases hrec : collapseGo true rest with
        | nil => rfl
        | cons a t =>
          have ha := collapseGo_true_head hrec
          have hane : a ≠ '-' := by
            intro he
            subst he
            exact absurd ha (by decide)
          have := ih true
          rw [hrec] at this
          simp only [noDoubleHyphen, Bool.and_eq_true, Bool.not_eq_true']
          exact ⟨by simp [hane], this⟩

theorem noDoubleHyphen_append_left {l post : JStr} (h : noDoubleHyphen (l ++ post) = true) :
    noDoubleHyphen l = true := by
  induction l with
  | nil => rfl
  | cons a t ih =>
    cases t with
    | nil => rfl
    | cons b t2 =>
      simp only [List.cons_append, noDoubleHyphen, Bool.and_eq_true] at h ⊢
      exact ⟨h.1, ih h.2⟩

theorem noDoubleHyphen_of_prefix {l m : JStr} (h : l <+: m) (hm : noDoubleHyphen m = true) :
    noDoubleHyphen l = true := by
  obtain ⟨post, rfl⟩ := h
  exact noDoubleHyphen_append_left hm

theorem noDoubleHyphen_of_suffix {l m : JStr} (h : l <:+ m) (hm : noDoubleHyphen m = true) :
    noDoubleHyphen l = true := by
  obtain ⟨pre, rfl⟩ := h
  induction pre with
  | nil => exact hm
  | cons a t ih => exact ih (noDoubleHyphen_cons hm)

theorem head?_of_prefix {l m : JStr} (h : l <+: m) (hl : l ≠ []) : m.head? = l.head? := by
  obtain ⟨post, rfl⟩ := h
  cases l with
  | nil => exact absurd rfl hl
  | cons a t => rfl

/-- All structural facts about `slugify` output, shared by the slug claims. -/
theorem slugify_invariants (s : JStr) :
    slugify s ≠ [] ∧ (∀ c ∈ slugify s, isSlugChar c = true) ∧
    noDoubleHyphen (slugify s) = true ∧
    (slugify s).head? ≠ some '-' ∧ (slugify s).getLast? ≠ some '-' := by
  unfold slugify
  by_cases h : (trimHyphens (collapseNonAlnum (Js.toLower (Js.trim s)))).isEmpty
  · rw [if_pos h]
    exact ⟨by decide, by decide, by decide, by decide, by decide⟩
  · rw [if_neg h]
    have hne : trimHyphens (collapseNonAlnum (Js.toLower (Js.trim s))) ≠ [] := by
      intro he
      rw [he] at h
      exact h rfl
    set m := collapseNonAlnum (Js.toLower (Js.trim s)) with hm
    have hpre : trimHyphens m <+: m.dropWhile (fun c => c = '-') :=
      List.rdropWhile_prefix _ _
    have hsuf : m.dropWhile (fun c => c = '-') <:+ m := List.dropWhile_suffix _
    refine ⟨hne, ?_, ?_, ?_, ?_⟩
    · intro c hc
      have hcm : c ∈ m := hsuf.subset (hpre.subset hc)
      exact slugChar_of_mem_collapse_lower (hm ▸ hcm)
    · exact noDoubleHyphen_of_prefix hpre
        (noDoubleHyphen_of_suffix hsuf (noDoubleHyphen_collapseGo false _))
    · intro hhd
      cases ht : trimHyphens m with
      | nil => exact hne ht
      | cons a t =>
        rw [ht] at hhd
        simp only [List.head?_cons, Option.some_inj] at hhd
        subst hhd
        have h2 := head?_of_prefix hpre (by rw [ht]; simp)
        rw [ht] at h2
        cases hd : m.dropWhile (fun c => c = '-') with
        | nil => rw [hd] at h2; simp at h2
        | cons b t2 =>
          rw [hd] at h2
          simp only [List.head?_cons, Option.some_inj] at h2
          have hb := dropWhile_eq_cons_not hd
          rw [h2] at hb
          simp at hb
    · intro hlast
      have hx := List.rdropWhile_last_not (fun c => c = '-') (m.dropWhile (fun c => c = '-'))
        hne
      apply hx
      rw [List.getLast?_eq_getLast_of_ne_nil hne] at hlast
      simp only [Option.some_inj] at hlast
      simp only [decide_eq_true_eq]
      exact hlast

/-! Fixpoint lemmas: a string already in slug normal form passes through every
stage of `slugify` unchanged. -/

theorem dropWhile_eq_self_of_all {α : Type} {p : α → Bool} {l : List α}
    (h : ∀ c ∈ l, p c = false) : l.dropWhile p = l := by
  cases l with
  | nil => rfl
  | cons a t =>
    rw [List.dropWhile_cons, h a (List.mem_cons_self a t)]
    simp

theorem rdropWhile_eq_self_of_all {α : Type} {p : α → Bool} {l : List α}
    (h : ∀ c ∈ l, p c = false) : l.rdropWhile p = l := by
  apply List.rdropWhile_eq_self_iff.mpr
  intro hl hp
  rw [h _ (List.getLast_mem hl)] at hp
  exact Bool.false_ne_true hp

theorem trim_eq_self_of_slug {l : JStr} (h : ∀ c ∈ l, isSlugChar c = true) :
    Js.trim l = l := by
  unfold Js.trim
  rw [dropWhile_eq_self_of_all (fun c hc => isSlugChar_not_ws (h c hc))]
  exact rdropWhile_eq_self_of_all (fun c hc => isSlugChar_not_ws (h c hc))

theorem toLower_eq_self_of_slug {l : JStr} (h : ∀ c ∈ l, isSlugChar c = true) :
    Js.toLower l = l := by
  unfold Js.toLower
  have : l.map Js.lowerChar = l.map id := by
    apply List.map_congr_left
    intro c hc
    have hcs := h c hc
    simp only [isSlugChar, Bool.or_eq_true, Bool.and_eq_true, decide_eq_true_eq] at hcs
    unfold Js.lowerChar
    rw [if_neg]
    · rfl
    · simp only [Bool.and_eq_true, decide_eq_true_eq, not_and, not_le]
      omega
  rw [this, List.map_id]

theorem collapse_eq_self_of {l : JStr} (h1 : ∀ c ∈ l, isSlugChar c = true)
    (h2 : noDoubleHyphen l = true) (h3 : l.getLast? ≠ some '-') :
    collapseNonAlnum l = l := by
  unfold collapseNonAlnum
  induction l with
  | nil => rfl
  | cons c rest ih =>
    by_cases hc : isAlnumAscii c = true
    · rw [collapseGo, if_pos hc]
      have htail : collapseGo false rest = rest := by
        apply ih
        · intro d hd; exact h1 d (List.mem_cons_of_mem _ hd)
        · exact noDoubleHyphen_cons h2
        · cases rest with
          | nil => simp
          | cons d t =>
            rw [← List.getLast?_cons_cons]
            exact h3
      rw [htail]
    · have hcs := h1 c (List.mem_cons_self _ _)
      have hc45 : c.toNat = 45 := by
        simp only [isSlugChar, Bool.or_eq_true, Bool.and_eq_true, decide_eq_true_eq] at hcs
        simp only [isAlnumAscii, Bool.or_eq_true, Bool.and_eq_true, decide_eq_true_eq,
          not_or, not_and, not_le] at hc
        omega
      have hceq : c = '-' := char_eq_of_toNat_eq (by rw [hc45]; rfl)
      subst hceq
      cases rest with
      | nil => exact absurd rfl h3
      | cons d t =>
        have hd : d ≠ '-' := by
          intro he
          subst he
          simp [noDoubleHyphen] at h2
        have hda : isAlnumAscii d = true := by
          have hds := h1 d (List.mem_cons_of_mem _ (List.mem_cons_self _ _))
          simp only [isSlugChar, Bool.or_eq_true, Bool.and_eq_true, decide_eq_true_eq] at hds
          have hd45 : d.toNat ≠ 45 := by
            intro he
            exact hd (char_eq_of_toNat_eq (by rw [he]; rfl))
          simp only [isAlnumAscii, Bool.or_eq_true, Bool.and_eq_true, decide_eq_true_eq]
          omega
        have htail : collapseGo false (d :: t) = d :: t := by
          apply ih
          · intro e he; exact h1 e (List.mem_cons_of_mem _ he)
          · exact noDoubleHyphen_cons h2
          · rw [← List.getLast?_cons_cons]
            exact h3
        rw [collapseGo, if_neg hc]
        simp only [Bool.false_eq_true, if_false]
        rw [collapseGo, if_pos hda]
        rw [collapseGo, if_pos hda] at htail
        have htail2 : collapseGo false t = t := by injection htail
        rw [htail2]

theorem trimHyphens_eq_self_of {l : JStr} (hh : l.head? ≠ some '-')
    (hl : l.getLast? ≠ some '-') : trimHyphens l = l := by
  unfold trimHyphens
  have h1 : l.dropWhile (fun c => c = '-') = l := by
    cases l with
    | nil => rfl
    | cons a t =>
      rw [List.dropWhile_cons]
      have ha : ¬(a = '-') := by
        intro he
        exact hh (by rw [he]; rfl)
      simp [ha]
  rw [h1]
  apply List.rdropWhile_eq_self_iff.mpr
  intro hne hp
  simp only [decide_eq_true_eq] at hp
  exact hl (by rw [List.getLast?_eq_getLast_of_ne_nil hne, hp])

/-- C7: `slugify` trims, lowercases, collapses every run of non-alphanumerics
into a single hyphen, strips boundary hyphens and falls back to `"skill"`
(this is the definition of `slugify` above, translated from the source);
consequently every output — hence every discovered skill's slug — is
non-empty, consists only of lowercase alphanumerics and hyphens, and has no
leading or trailing hyphen. -/
theorem C7_slugify_output_normal_form (s : JStr) :
    slugify s ≠ [] ∧ (∀ c ∈ slugify s, isSlugChar c = true) ∧
    (slugify s).head? ≠ some '-' ∧ (slugify s).getLast? ≠ some '-' := by
  obtain ⟨h1, h2, _, h4, h5⟩ := slugify_invariants s
  exact ⟨h1, h2, h4, h5⟩

/-- Witness for C7: instantiate the theorem at the concrete name
`"My Skill!"`, whose slug evaluates to `"my-skill"`, and read the
character-class fact off the membership hypothesis. -/
theorem C7_slugify_output_normal_form_witness :
    isSlugChar 'm' = true ∧ slugify (js ("My Skill!")) = js ("my-skill") :=
  ⟨(C7_slugify_output_normal_form (js ("My Skill!"))).2.1 'm' (by decide), by decide⟩

/-- C10: `slugify` is idempotent — applying it to its own output returns the
output unchanged; in particular the fallback slug `"skill"` is fixed. -/
theorem C10_slugify_idempotent (s : JStr) : slugify (slugify s) = slugify s := by
  obtain ⟨h1, h2, h3, h4, h5⟩ := slugify_invariants s
  set t := slugify s with ht
  show slugify t = t
  simp only [slugify]
  rw [trim_eq_self_of_slug h2, toLower_eq_self_of_slug h2, collapse_eq_self_of h2 h3 h5,
    trimHyphens_eq_self_of h4 h5]
  have : t.isEmpty = false := by
    cases ht2 : t with
    | nil => exact absurd ht2 h1
    | cons a b => rfl
  rw [this]
  simp

/-! Round-trip lemmas for the resource URI scheme (claim C5). -/

theorem splitSlash_ne_nil (l : JStr) : Js.splitSlash l ≠ [] := by
  cases l with
  | nil => simp [Js.splitSlash]
  | cons c rest =>
    rw [Js.splitSlash]
    by_cases hc : c = '/'
    · simp [hc]
    · rw [if_neg hc]
      cases hs : Js.splitSlash rest with
      | nil => simp
      | cons h t => simp

theorem splitSlash_append {s r : JStr} (hs : '/' ∉ s) :
    Js.splitSlash (s ++ '/' :: r) = s :: Js.splitSlash r := by
  induction s with
  | nil =>
    simp only [List.nil_append]
    rw [Js.splitSlash, if_pos rfl]
  | cons c t ih =>
    have hc : c ≠ '/' := fun he => hs (he ▸ List.mem_cons_self _ _)
    rw [List.cons_append, Js.splitSlash, if_neg hc,
      ih (fun hm => hs (List.mem_cons_of_mem _ hm))]

theorem joinSlash_cons_of_ne {x : JStr} {ts : List JStr} (h : ts ≠ []) :
    Js.joinSlash (x :: ts) = x ++ '/' :: Js.joinSlash ts := by
  cases ts with
  | nil => exact absurd rfl h
  | cons y t => rfl

theorem joinSlash_splitSlash (r : JStr) : Js.joinSlash (Js.splitSlash r) = r := by
  induction r with
  | nil => rfl
  | cons c t ih =>
    rw [Js.splitSlash]
    by_cases hc : c = '/'
    · rw [if_pos hc]
      cases hs : Js.splitSlash t with
      | nil => exact absurd hs (splitSlash_ne_nil t)
      | cons h2 t2 =>
        rw [hs] at ih
        rw [joinSlash_cons_of_ne (by simp), ih, hc]
        rfl
    · rw [if_neg hc]
      cases hs : Js.splitSlash t with
      | nil => exact absurd hs (splitSlash_ne_nil t)
      | cons h2 t2 =>
        rw [hs] at ih
        cases t2 with
        | nil =>
          have h1 : Js.joinSlash [h2] = t := ih
          rw [show Js.joinSlash [h2] = h2 from rfl] at h1
          rw [show Js.joinSlash [c :: h2] = c :: h2 from rfl, h1]
        | cons h3 t3 =>
          rw [joinSlash_cons_of_ne (by simp)] at ih
          rw [joinSlash_cons_of_ne (by simp), ← ih]
          rfl

theorem unreserved_ne_pct {c : Char} (h : unreservedURI c = true) : c ≠ '%' := by
  intro he
  subst he
  exact absurd h (by decide)

theorem unreserved_ne_slash {c : Char} (h : unreservedURI c = true) : c ≠ '/' := by
  intro he
  subst he
  exact absurd h (by decide)

theorem encode_unreserved_id {l : JStr} (h : ∀ c ∈ l, unreservedURI c = true) :
    encodeURIComponent l = l := by
  induction l with
  | nil => rfl
  | cons c t ih =>
    unfold encodeURIComponent at ih ⊢
    rw [List.flatMap_cons, if_pos (h c (List.mem_cons_self _ _)),
      ih (fun d hd => h d (List.mem_cons_of_mem _ hd))]
    rfl

theorem replace2F_cons_ne_pct {c : Char} {t : JStr} (hc : c ≠ '%') :
    replace2F (c :: t) = c :: replace2F t := by
  rw [replace2F.eq_def]
  split
  · rename_i heq
    injection heq with h1 _
    exact absurd h1 hc
  · rename_i d rest heq
    injection heq with h1 h2
    rw [h1, h2]
  · rename_i heq
    exact absurd heq (by simp)

theorem replace2F_encode_id {l : JStr} (h : ∀ c ∈ l, unreservedURI c = true ∨ c = '/') :
    replace2F (encodeURIComponent l) = l := by
  induction l with
  | nil => rfl
  | cons c t ih =>
    have iht := ih (fun d hd => h d (List.mem_cons_of_mem _ hd))
    unfold encodeURIComponent at iht ⊢
    rw [List.flatMap_cons]
    rcases h c (List.mem_cons_self _ _) with hu | hs
    · rw [if_pos hu]
      rw [List.singleton_append]
      rw [replace2F_cons_ne_pct (unreserved_ne_pct hu), iht]
    · subst hs
      rw [if_neg (by decide)]
      generalize hX : (t.flatMap fun c => if unreservedURI c then [c]
        else (utf8EncodeChar c).flatMap percentByte) = X at iht ⊢
      have hstep : (utf8EncodeChar '/').flatMap percentByte ++ X = '%' :: '2' :: 'F' :: X := rfl
      rw [hstep, replace2F, iht]

theorem decodeGo_cons_ne_pct {c : Char} {t : JStr} (hc : c ≠ '%') (n : Nat) :
    decodeGo (n + 1) (c :: t) = (decodeGo n t).map (c :: ·) := by
  rw [decodeGo, if_neg hc]

theorem decodeGo_no_pct {l : JStr} (h : ∀ c ∈ l, c ≠ '%') :
    decodeGo l.length l = some l := by
  induction l with
  | nil => rfl
  | cons c t ih =>
    rw [List.length_cons, decodeGo_cons_ne_pct (h c (List.mem_cons_self _ _)),
      ih (fun d hd => h d (List.mem_cons_of_mem _ hd))]
    rfl

theorem decodeURIComponent_no_pct {l : JStr} (h : ∀ c ∈ l, c ≠ '%') :
    decodeURIComponent l = Except.ok l := by
  unfold decodeURIComponent
  rw [decodeGo_no_pct h]

/-- C5 as frozen is false: `buildResourceUri` percent-encodes the path, but
the extraction in `fetchResource` never percent-decodes the path remainder,
so any path needing an escape does not round-trip.  For the skill with slug
`"s"` and the path `"a b"` (no `..`, no leading `/`), building yields
`resource://skillz/s/a%20b` and parsing returns the still-encoded path
`"a%20b"`, not `"a b"`. -/
theorem C5_counterexample_space_path :
    parseResourceUri (buildResourceUri demoSkill (js ("a b"))) =
      Except.ok (some (js ("s"), js ("a%20b"))) ∧
    js ("a%20b") ≠ js ("a b") := by
  constructor
  · rfl
  · decide

/-- C5 (amended): building then parsing yields back exactly the slug and the
path, provided additionally that the slug is non-empty and made of
`encodeURIComponent`-unreserved characters (true of every `slugify` output)
and the path is non-empty and made of unreserved characters and slashes — the
characters whose percent-encoding is trivial, which the counterexample shows
is required because the extraction never percent-decodes the path. -/
theorem C5_build_parse_inverse (skill : Skill) (p : JStr)
    (hslug1 : skill.slug ≠ [])
    (hslug2 : ∀ c ∈ skill.slug, unreservedURI c = true)
    (hp1 : p ≠ [])
    (hp2 : ∀ c ∈ p, unreservedURI c = true ∨ c = '/')
    (hp3 : Js.includes (js ("..")) p = false)
    (hp4 : p.head? ≠ some '/') :
    parseResourceUri (buildResourceUri skill p) =
      Except.ok (some (skill.slug, p)) := by
  unfold buildResourceUri parseResourceUri
  rw [encode_unreserved_id hslug2, replace2F_encode_id hp2]
  have hpre : Js.startsWith resourceUriRoot
      (resourceUriRoot ++ skill.slug ++ '/' :: p) = true := by
    unfold Js.startsWith
    rw [List.isPrefixOf_iff_prefix, List.append_assoc]
    exact List.prefix_append _ _
  rw [hpre]
  simp only [Bool.not_true, Bool.false_eq_true, if_false]
  have hdrop : (resourceUriRoot ++ skill.slug ++ '/' :: p).drop resourceUriRoot.length
      = skill.slug ++ '/' :: p := by
    rw [List.append_assoc]
    exact List.drop_left _ _
  rw [hdrop]
  have hrem : (skill.slug ++ '/' :: p).isEmpty = false := by
    cases hs : skill.slug with
    | nil => exact absurd hs hslug1
    | cons a t => rfl
  rw [hrem]
  simp only [Bool.false_eq_true, if_false]
  have hnoslash : '/' ∉ skill.slug := fun hm =>
    unreserved_ne_slash (hslug2 _ hm) rfl
  rw [splitSlash_append hnoslash]
  have hlen : ¬((skill.slug :: Js.splitSlash p).length < 2) := by
    cases hs : Js.splitSlash p with
    | nil => exact absurd hs (splitSlash_ne_nil p)
    | cons a t => simp
  have hp0 : skill.slug.isEmpty = false := by
    cases hs : skill.slug with
    | nil => exact absurd hs hslug1
    | cons a t => rfl
  have hjoin : Js.joinSlash (Js.splitSlash p) = p := joinSlash_splitSlash p
  have hjoin_ne : (Js.joinSlash (Js.splitSlash p)).isEmpty = false := by
    rw [hjoin]
    cases hps : p with
    | nil => exact absurd hps hp1
    | cons a t => rfl
  simp only [decide_eq_true_eq]
  rw [if_neg (by
    simp only [Bool.or_eq_true, decide_eq_true_eq, hp0, hjoin_ne]
    simp only [Bool.false_eq_true, or_false]
    exact hlen)]
  rw [decodeURIComponent_no_pct (fun c hc => unreserved_ne_pct (hslug2 c hc))]
  rw [hjoin]

/-- Witness for the amended C5 at the concrete slug `"s"` and path
`"dir/file.txt"`. -/
theorem C5_build_parse_inverse_witness :
    parseResourceUri (buildResourceUri demoSkill (js ("dir/file.txt"))) =
      Except.ok (some (js ("s"), js ("dir/file.txt"))) :=
  C5_build_parse_inverse demoSkill (js ("dir/file.txt")) (by decide) (by decide)
    (by decide) (by decide) (by decide) (by decide)

/-- C3 is contradicted by the code: `decodeURIComponent(parts[0])` at
src/resources.ts line 104 sits outside every try/catch, so a URI whose slug
segment carries a malformed percent escape makes `fetchResource` throw a
`URIError` (the async function returns a rejected promise) instead of
returning a structured `Error:` payload.  This theorem evaluates the model at
the failing input `resource://skillz/%/f`. -/
theorem C3_fetch_throws_on_malformed_slug :
    fetchResource [] trivFs (js ("resource://skillz/%/f")) =
      Except.error (js ("URIError: URI malformed")) := by
  rfl

/-- Counterexample to C1 as frozen: the URI `resource://skillz/%/..` has a
path remainder containing `..`, yet `fetchResource` does not return the
traversal payload — it throws, because the slug segment is percent-decoded
(line 104) before the traversal check (line 108) and `%` is a malformed
escape. -/
theorem C1_counterexample_decode_before_traversal :
    fetchResource [] trivFs (js ("resource://skillz/%/..")) =
      Except.error (js ("URIError: URI malformed")) ∧
    fetchResource [] trivFs (js ("resource://skillz/%/..")) ≠
      Except.ok (makeErrorResource (js ("resource://skillz/%/.."))
        (js ("invalid path: path traversal not allowed"))) := by
  constructor
  · rfl
  · intro h
    rw [show fetchResource [] trivFs (js ("resource://skillz/%/..")) =
      Except.error (js ("URIError: URI malformed")) from rfl] at h
    exact Except.noConfusion h

/-- C1 (amended): for every registry, every filesystem/archive oracle and
every URI whose slug segment percent-decodes successfully and whose path
remainder contains `..` or begins with `/`, `fetchResource` returns the
structured traversal error payload.  Quantification over all oracles and all
registries expresses that the rejection happens before any filesystem,
archive or registry access (the amendment — a successfully decoding slug
segment — is forced by the counterexample above). -/
theorem C1_traversal_rejected_before_io (registry : List (JStr × Skill)) (fs : Fs)
    (slugSeg rest : JStr)
    (h1 : slugSeg ≠ [])
    (h2 : '/' ∉ slugSeg)
    (h3 : ∃ s, decodeURIComponent slugSeg = Except.ok s)
    (h4 : rest ≠ [])
    (h5 : Js.includes (js ("..")) rest = true ∨ Js.startsWith (js ("/")) rest = true) :
    fetchResource registry fs (resourceUriRoot ++ slugSeg ++ '/' :: rest) =
      Except.ok (makeErrorResource (resourceUriRoot ++ slugSeg ++ '/' :: rest)
        (js ("invalid path: path traversal not allowed"))) := by
  obtain ⟨s, hdec⟩ := h3
  unfold fetchResource
  have hpre : Js.startsWith resourceUriRoot
      (resourceUriRoot ++ slugSeg ++ '/' :: rest) = true := by
    unfold Js.startsWith
    rw [List.isPrefixOf_iff_prefix, List.append_assoc]
    exact List.prefix_append _ _
  rw [hpre]
  simp only [Bool.not_true, Bool.false_eq_true, if_false]
  have hdrop : (resourceUriRoot ++ slugSeg ++ '/' :: rest).drop resourceUriRoot.length
      = slugSeg ++ '/' :: rest := by
    rw [List.append_assoc]
    exact List.drop_left _ _
  rw [hdrop]
  have hrem : (slugSeg ++ '/' :: rest).isEmpty = false := by
    cases hs : slugSeg with
    | nil => exact absurd hs h1
    | cons a t => rfl
  rw [hrem]
  simp only [Bool.false_eq_true, if_false]
  rw [splitSlash_append h2]
  have hjoin : Js.joinSlash (Js.splitSlash rest) = rest := joinSlash_splitSlash rest
  have hlen : ¬((slugSeg :: Js.splitSlash rest).length < 2) := by
    cases hs : Js.splitSlash rest with
    | nil => exact absurd hs (splitSlash_ne_nil rest)
    | cons a t => simp
  have hp0 : slugSeg.isEmpty = false := by
    cases hs : slugSeg with
    | nil => exact absurd hs h1
    | cons a t => rfl
  have hjoin_ne : (Js.joinSlash (Js.splitSlash rest)).isEmpty = false := by
    rw [hjoin]
    cases hs : rest with
    | nil => exact absurd hs h4
    | cons a t => rfl
  simp only [decide_eq_true_eq]
  rw [if_neg (by
    simp only [Bool.or_eq_true, decide_eq_true_eq, hp0, hjoin_ne]
    simp only [Bool.false_eq_true, or_false]
    exact hlen)]
  rw [hdec]
  simp only []
  rw [if_pos (by
    rw [hjoin]
    rcases h5 with h5a | h5b
    · rw [h5a]
      rfl
    · rw [h5b]
      simp)]

/-- Witness for the amended C1 at the concrete URI
`resource://skillz/s/../secret` against the empty registry. -/
theorem C1_traversal_rejected_before_io_witness :
    fetchResource [] trivFs (js ("resource://skillz/s/../secret")) =
      Except.ok (makeErrorResource (js ("resource://skillz/s/../secret"))
        (js ("invalid path: path traversal not allowed"))) :=
  C1_traversal_rejected_before_io [] trivFs (js ("s")) (js ("../secret"))
    (by decide) (by decide) ⟨js ("s"), by rfl⟩ (by decide) (Or.inl (by rfl))

/-- C4 is contradicted by the code: `isValidUtf8` wraps
`buffer.toString("utf-8")` in try/catch, but that Node call never throws — it
decodes lossily with U+FFFD — so `isValidUtf8` is constantly `true` and the
base64 branch of `fetchResource` is dead code.  For the resource bytes
`[0xFF]`, which strict UTF-8 validation rejects, `fetchResource` returns
`encoding: "utf-8"` with the replacement-character text instead of the
base64 payload the claim (and the source's own comments) describe. -/
theorem C4_invalid_utf8_not_base64 :
    strictUtf8Valid [255] = false ∧
    isValidUtf8 [255] = true ∧
    fetchResource [(js ("s"), demoSkill)] invalidByteFs (js ("resource://skillz/s/a.bin")) =
      Except.ok
        { uri := js ("resource://skillz/s/a.bin")
          name := js ("s/a.bin")
          mimeType := some (js ("application/octet-stream"))
          content := [fffd]
          encoding := js ("utf-8") } := by
  refine ⟨rfl, rfl, ?_⟩
  rfl

/-- C8: `parseSkillMd` fails with a `SkillValidationError` exactly when the
`---` front matter block is absent or malformed, the header does not parse as
YAML, the header value is not a mapping (a bare truthy scalar fails the
`typeof` check; a list passes `typeof` but then has no `name`, failing the
blank-name check — extensionally the same failure set), `name` is blank, or
`description` is blank; and every failure message contains the supplied
source label.  Quantified over every `js-yaml` oracle. -/
theorem C8_parse_failure_conditions (yamlLoad : YamlLoader) (content : JStr)
    (filePath : Option JStr) :
    ((∃ e, parseSkillMd yamlLoad content filePath = Except.error e) ↔
      (fmMatch content = none ∨
        ∃ fm body, fmMatch content = some (fm, body) ∧
          ((∃ e2, yamlLoad fm = Except.error e2) ∨
            ∃ v, yamlLoad fm = Except.ok v ∧
              (yamlIsMapping (effData v) = false ∨
                (strField (effData v) (js ("name"))).isEmpty = true ∨
                (strField (effData v) (js ("description"))).isEmpty = true)))) ∧
    (∀ e, parseSkillMd yamlLoad content filePath = Except.error e →
      ∃ pre post, e = pre ++ sourceLabel filePath ++ post) := by
  constructor
  · constructor
    · rintro ⟨e, he⟩
      simp only [parseSkillMd] at he
      split at he
      · rename_i hfm
        exact Or.inl hfm
      · rename_i fm body hfm
        split at he
        · rename_i e2 hy
          exact Or.inr ⟨fm, body, hfm, Or.inl ⟨e2, hy⟩⟩
        · rename_i v hy
          split at he
          · rename_i hobj
            refine Or.inr ⟨fm, body, hfm, Or.inr ⟨v, hy, Or.inl ?_⟩⟩
            cases hv : effData v <;> simp_all [yamlIsObject, yamlIsMapping]
          · rename_i hobj
            split at he
            · rename_i hname
              exact Or.inr ⟨fm, body, hfm, Or.inr ⟨v, hy, Or.inr (Or.inl hname)⟩⟩
            · rename_i hname
              split at he
              · rename_i hdesc
                exact Or.inr ⟨fm, body, hfm, Or.inr ⟨v, hy, Or.inr (Or.inr hdesc)⟩⟩
              · exact absurd he (by simp)
    · intro hdisj
      simp only [parseSkillMd]
      rcases hdisj with hfm | ⟨fm, body, hfm, hrest⟩
      · rw [hfm]
        exact ⟨_, rfl⟩
      · rw [hfm]
        simp only []
        rcases hrest with ⟨e2, hy⟩ | ⟨v, hy, hcond⟩
        · rw [hy]
          exact ⟨_, rfl⟩
        · rw [hy]
          simp only []
          by_cases hobj : yamlIsObject (effData v) = true
          · have hnb : yamlIsMapping (effData v) = false →
                (strField (effData v) (js ("name"))).isEmpty = true := by
              intro hmap
              cases hv : effData v <;> simp_all [yamlIsObject, yamlIsMapping, strField,
                yamlField, yamlTruthy, Js.trim]
            by_cases hname : (strField (effData v) (js ("name"))).isEmpty = true
            · simp only [hobj, Bool.not_true, Bool.false_eq_true, if_false]
              rw [if_pos hname]
              exact ⟨_, rfl⟩
            · by_cases hdesc : (strField (effData v) (js ("description"))).isEmpty = true
              · simp only [hobj, Bool.not_true, Bool.false_eq_true, if_false]
                rw [if_neg hname, if_pos hdesc]
                exact ⟨_, rfl⟩
              · rcases hcond with hmap | hnm | hds
                · exact absurd (hnb hmap) hname
                · exact absurd hnm hname
                · exact absurd hds hdesc
          · rw [if_pos (by simp [hobj])]
            exact ⟨_, rfl⟩
  · intro e he
    simp only [parseSkillMd] at he
    split at he
    · injection he with h
      subst h
      exact ⟨[], js (" must begin with YAML front matter delimited by ") ++ [squo] ++
        js ("---") ++ [squo] ++ js ("."), by simp [List.append_assoc]⟩
    · split at he
      · rename_i e2 hy
        injection he with h
        subst h
        exact ⟨js ("Unable to parse YAML in "), js (": ") ++ e2, by simp [List.append_assoc]⟩
      · rename_i v hy
        split at he
        · injection he with h
          subst h
          exact ⟨js ("Front matter in "), js (" must define a mapping, not ") ++
            typeofStr (effData v) ++ js ("."), by simp [List.append_assoc]⟩
        · split at he
          · injection he with h
            subst h
            exact ⟨js ("Front matter in "), js (" is missing ") ++ [squo] ++ js ("name") ++
              [squo] ++ js ("."), by simp [List.append_assoc]⟩
          · split at he
            · injection he with h
              subst h
              exact ⟨js ("Front matter in "), js (" is missing ") ++ [squo] ++
                js ("description") ++ [squo] ++ js ("."), by simp [List.append_assoc]⟩
            · exact absurd he (by simp)

/-- Witness for C8: a document with no front matter fails, via the theorem at
the concrete oracle and input. -/
theorem C8_parse_failure_conditions_witness :
    ∃ e, parseSkillMd simpleYamlLoad (js ("plain text")) none = Except.error e :=
  ((C8_parse_failure_conditions simpleYamlLoad (js ("plain text")) none).1).mpr
    (Or.inl (by rfl))

theorem hasKey_eq_false_iff {m : List (JStr × Skill)} {k : JStr} :
    hasKey m k = false ↔ k ∉ m.map (fun kv => kv.1) := by
  unfold hasKey
  rw [List.any_eq_false]
  constructor
  · intro h hk
    obtain ⟨kv, hkv, hkey⟩ := List.mem_map.mp hk
    exact (h kv hkv) (by simp [hkey])
  · intro h kv hkv
    simp only [decide_eq_true_eq]
    intro he
    exact h (List.mem_map.mpr ⟨kv, hkv, he⟩)

theorem registerSkill_inv {st : RegState} (metaName : JStr) (mk : JStr → Skill)
    (hmk : ∀ slug, (mk slug).slug = slug ∧ (mk slug).metadata.name = metaName)
    (h : RegInv st) : RegInv (registerSkill st metaName mk) := by
  obtain ⟨h1, h2, h3, h4⟩ := h
  unfold registerSkill
  by_cases hs : hasKey st.bySlug (slugify metaName) = true
  · rw [if_pos hs]
    exact ⟨h1, h2, h3, h4⟩
  · rw [if_neg hs]
    by_cases hn : hasKey st.byName metaName = true
    · rw [if_pos hn]
      exact ⟨h1, h2, h3, h4⟩
    · rw [if_neg hn]
      have hs2 : slugify metaName ∉ st.bySlug.map (fun kv => kv.1) :=
        hasKey_eq_false_iff.mp (Bool.eq_false_iff.mpr hs)
      have hn2 : metaName ∉ st.byName.map (fun kv => kv.1) :=
        hasKey_eq_false_iff.mp (Bool.eq_false_iff.mpr hn)
      obtain ⟨hmk1, hmk2⟩ := hmk (slugify metaName)
      refine ⟨?_, ?_, ?_, ?_⟩
      · simp only [List.map_append, List.map_cons, List.map_nil]
        rw [List.nodup_append]
        exact ⟨h1, List.nodup_singleton _, by simpa using hs2⟩
      · simp only [List.map_append, List.map_cons, List.map_nil]
        rw [List.nodup_append]
        exact ⟨h2, List.nodup_singleton _, by simpa using hn2⟩
      · simp only [List.map_append, List.map_cons, List.map_nil]
        rw [h3, hmk2]
      · simp only [List.map_append, List.map_cons, List.map_nil]
        rw [h4, hmk1]

theorem registerCandidate_inv {st : RegState} (c : SkillCandidate)
    (h : RegInv st) : RegInv (registerCandidate st c) :=
  registerSkill_inv c.metadata.name (candidateSkill c) (fun _ => ⟨rfl, rfl⟩) h

theorem foldl_register_inv (cands : List SkillCandidate) :
    ∀ st, RegInv st → RegInv (cands.foldl registerCandidate st) := by
  induction cands with
  | nil => intro st h; exact h
  | cons c rest ih => intro st h; exact ih _ (registerCandidate_inv c h)

theorem loadCandidates_inv (cands : List SkillCandidate) :
    RegInv (loadCandidates cands) :=
  foldl_register_inv cands emptyRegistry ⟨List.nodup_nil, List.nodup_nil, rfl, rfl⟩

/-- C2: after every `load()` — modelled as the fold of the shared
registration step over the discovery-ordered sequence of successfully parsed
candidates, starting from the cleared registry — the registered skills have
pairwise-distinct slugs and pairwise-distinct raw `metadata.name` values; and
whenever a candidate's slug or raw name already exists in the registry, the
candidate is rejected and the registry (hence the earlier-registered skill)
is unchanged. -/
theorem C2_registry_uniqueness (cands : List SkillCandidate) :
    ((registrySkills (loadCandidates cands)).map (fun sk => sk.slug)).Nodup ∧
    ((registrySkills (loadCandidates cands)).map (fun sk => sk.metadata.name)).Nodup ∧
    (∀ st c, (hasKey st.bySlug (slugify c.metadata.name) = true ∨
        hasKey st.byName c.metadata.name = true) →
      registerCandidate st c = st) := by
  obtain ⟨h1, h2, h3, h4⟩ := loadCandidates_inv cands
  refine ⟨?_, ?_, ?_⟩
  · unfold registrySkills
    rw [List.map_map]
    rw [show ((fun sk => sk.slug) ∘ (fun kv : JStr × Skill => kv.2)) =
      fun kv : JStr × Skill => kv.2.slug from rfl]
    rw [← h4]
    exact h1
  · unfold registrySkills
    rw [List.map_map]
    rw [show ((fun sk => sk.metadata.name) ∘ (fun kv : JStr × Skill => kv.2)) =
      fun kv : JStr × Skill => kv.2.metadata.name from rfl]
    rw [← h3]
    exact h2
  · intro st c hdup
    unfold registerCandidate registerSkill
    rcases hdup with hs | hn
    · rw [if_pos hs]
    · by_cases hs2 : hasKey st.bySlug (slugify c.metadata.name) = true
      · rw [if_pos hs2]
      · rw [if_neg hs2, if_pos hn]

/-- Witness for C2: re-registering an already-registered candidate leaves the
registry unchanged, via the theorem at the concrete one-candidate load. -/
theorem C2_registry_uniqueness_witness :
    registerCandidate (loadCandidates [demoCandidate]) demoCandidate =
      loadCandidates [demoCandidate] :=
  (C2_registry_uniqueness [demoCandidate]).2.2 (loadCandidates [demoCandidate])
    demoCandidate (Or.inl (by decide))

theorem zipSkillMdLocation_spec {zip : Zip} {p pre : JStr}
    (h : zipSkillMdLocation zip = some (p, pre)) :
    ((filesOf zip).contains (js ("SKILL.md")) = true ∧ p = js ("SKILL.md") ∧ pre = []) ∨
    (∃ top, topLevelDirs zip = [top] ∧
      (filesOf zip).contains (top ++ '/' :: js ("SKILL.md")) = true ∧
      p = top ++ '/' :: js ("SKILL.md") ∧ pre = top ++ ['/']) := by
  simp only [zipSkillMdLocation] at h
  split at h
  · rename_i hroot
    simp only [Option.some_inj, Prod.mk.injEq] at h
    exact Or.inl ⟨hroot, h.1.symm, h.2.symm⟩
  · rename_i hroot
    split at h
    · rename_i topDir htop
      split at h
      · rename_i hc
        simp only [Option.some_inj, Prod.mk.injEq] at h
        exact Or.inr ⟨topDir, htop, hc, h.1.symm, h.2.symm⟩
      · exact absurd h (by simp)
    · exact absurd h (by simp)

/-- C9 (amended): archive registration happens only when SKILL.md is at the
archive root, or when the slash-containing entry names share exactly one
top-level directory and SKILL.md sits directly inside it — "common to all
archive entries" in the frozen claim must be weakened to "common to all
slash-containing entry names", as the counterexample below shows; when
neither location applies the registry is unchanged (non-fatal skip); and any
skill the call adds records the located internal prefix. -/
theorem C9_zip_registration_location (yamlLoad : YamlLoader) (st : RegState)
    (zip : Zip) (zipPath : JStr) :
    (tryRegisterZipSkill yamlLoad st (Except.ok zip) zipPath ≠ st →
      ((filesOf zip).contains (js ("SKILL.md")) = true ∨
        ∃ top, topLevelDirs zip = [top] ∧
          (filesOf zip).contains (top ++ '/' :: js ("SKILL.md")) = true)) ∧
    (zipSkillMdLocation zip = none →
      tryRegisterZipSkill yamlLoad st (Except.ok zip) zipPath = st) ∧
    (∀ p pre, zipSkillMdLocation zip = some (p, pre) →
      ∀ kv ∈ (tryRegisterZipSkill yamlLoad st (Except.ok zip) zipPath).bySlug,
        kv ∈ st.bySlug ∨ kv.2.zipRootPrefix = pre) := by
  refine ⟨?_, ?_, ?_⟩
  · intro hne
    cases hloc : zipSkillMdLocation zip with
    | none =>
      exfalso
      apply hne
      simp [tryRegisterZipSkill, hloc]
    | some pr =>
      obtain ⟨p, pre⟩ := pr
      rcases zipSkillMdLocation_spec hloc with ⟨h1, _, _⟩ | ⟨top, h1, h2, _, _⟩
      · exact Or.inl h1
      · exact Or.inr ⟨top, h1, h2⟩
  · intro h
    simp [tryRegisterZipSkill, h]
  · intro p pre hloc kv hkv
    simp only [tryRegisterZipSkill, hloc] at hkv
    cases hfind : zipFind zip p with
    | none =>
      simp only [hfind] at hkv
      exact Or.inl hkv
    | some entry =>
      simp only [hfind] at hkv
      cases hparse : parseSkillMd yamlLoad (utf8DecodeLossy entry.data) (some p) with
      | error e =>
        simp only [hparse] at hkv
        exact Or.inl hkv
      | ok parsed =>
        simp only [hparse] at hkv
        unfold registerSkill at hkv
        by_cases hs : hasKey st.bySlug (slugify parsed.metadata.name) = true
        · rw [if_pos hs] at hkv
          exact Or.inl hkv
        · rw [if_neg hs] at hkv
          by_cases hn : hasKey st.byName parsed.metadata.name = true
          · rw [if_pos hn] at hkv
            exact Or.inl hkv
          · rw [if_neg hn] at hkv
            simp only [] at hkv
            rcases List.mem_append.mp hkv with hin | hnew
            · exact Or.inl hin
            · right
              rw [List.mem_singleton.mp hnew]

theorem prefix_slash_mem {top l : JStr} (h : (top ++ ['/']).isPrefixOf l = true) :
    '/' ∈ l := by
  rw [List.isPrefixOf_iff_prefix] at h
  obtain ⟨t, ht⟩ := h
  rw [← ht]
  simp

/-- Counterexample to C9 as frozen: the archive `czip` is registered (it has
SKILL.md inside the single top-level directory `a` of its slash-containing
names), yet SKILL.md is not at the root and no top-level directory is common
to ALL entries — the root entry `b.txt` contains no slash, so no `top/` is a
prefix of it. -/
theorem C9_counterexample_loose_root_file :
    tryRegisterZipSkill simpleYamlLoad emptyRegistry (Except.ok czip) (js ("/t.zip")) ≠
      emptyRegistry ∧
    (filesOf czip).contains (js ("SKILL.md")) = false ∧
    (∀ top : JStr, ¬((top ++ ['/']).isPrefixOf (js ("b.txt")) = true)) ∧
    js ("b.txt") ∈ czip.map (fun e => e.name) := by
  refine ⟨?_, by decide, ?_, by decide⟩
  · intro h
    have h2 := congrArg (fun s => s.bySlug.length) h
    exact absurd h2 (by decide)
  · intro top hp
    have hmem := prefix_slash_mem hp
    revert hmem
    decide

/-- Witness for the amended C9: the location disjunction at the concrete
archive `czip`, obtained by applying the theorem. -/
theorem C9_zip_registration_location_witness :
    (filesOf czip).contains (js ("SKILL.md")) = true ∨
      ∃ top, topLevelDirs czip = [top] ∧
        (filesOf czip).contains (top ++ '/' :: js ("SKILL.md")) = true :=
  (C9_zip_registration_location simpleYamlLoad emptyRegistry czip (js ("/t.zip"))).1
    (fun h => absurd (congrArg (fun s => s.bySlug.length) h) (by decide))

theorem dirsLoop_eq_flatMap (rec : JStr → List Entry → List ScanEvent)
    (directory : JStr) (entries : List Entry) (ns : List JStr) :
    dirsLoop rec directory entries ns =
      ns.flatMap (fun n =>
        match findEntry entries n with
        | some (Entry.dir _ ch2) => rec (joinP directory n) ch2
        | _ => []) := by
  induction ns with
  | nil => rfl
  | cons n rest ih => rw [dirsLoop, ih, List.flatMap_cons]

theorem zipsLoop_eq_flatMap (directory : JStr) (entries : List Entry) (ns : List JStr) :
    zipsLoop directory entries ns =
      ns.flatMap (fun n =>
        match findEntry entries n with
        | some (Entry.file _ _) =>
          if isZipFile (joinP directory n) then [ScanEvent.zipTry (joinP directory n)]
          else []
        | _ => []) := by
  induction ns with
  | nil => rfl
  | cons n rest ih => rw [zipsLoop, ih, List.flatMap_cons]

theorem lexLeN_total : ∀ x y : List Nat, lexLeN x y = true ∨ lexLeN y x = true := by
  intro x
  induction x with
  | nil => intro y; exact Or.inl rfl
  | cons a xs ih =>
    intro y
    cases y with
    | nil => exact Or.inr rfl
    | cons b ys =>
      by_cases hab : a < b
      · left
        rw [lexLeN, if_pos hab]
      · by_cases hba : b < a
        · right
          rw [lexLeN, if_pos hba]
        · have heq : a = b := by omega
          subst heq
          rcases ih ys with h | h
          · left
            rw [lexLeN, if_neg (Nat.lt_irrefl a), if_neg (Nat.lt_irrefl a)]
            exact h
          · right
            rw [lexLeN, if_neg (Nat.lt_irrefl a), if_neg (Nat.lt_irrefl a)]
            exact h

theorem jsStrLe_total (a b : JStr) : jsStrLe a b = true ∨ jsStrLe b a = true :=
  lexLeN_total _ _

theorem insertSorted_head_cases (a : JStr) (l : List JStr) :
    (insertSorted a l).head? = some a ∨ (insertSorted a l).head? = l.head? := by
  cases l with
  | nil => exact Or.inl rfl
  | cons b bs =>
    by_cases h : jsStrLe a b = true
    · left
      rw [insertSorted, if_pos h]
      rfl
    · right
      rw [insertSorted, if_neg h]
      rfl

theorem chain_insertSorted {a : JStr} :
    ∀ {l : List JStr}, List.Chain' (fun x y => jsStrLe x y = true) l →
      List.Chain' (fun x y => jsStrLe x y = true) (insertSorted a l) := by
  intro l
  induction l with
  | nil =>
    intro _
    simp [insertSorted]
  | cons b bs ih =>
    intro h
    by_cases hab : jsStrLe a b = true
    · rw [insertSorted, if_pos hab]
      apply List.chain'_cons'.mpr
      refine ⟨?_, h⟩
      intro c hc
      simp only [List.head?_cons, Option.mem_def, Option.some_inj] at hc
      subst hc
      exact hab
    · rw [insertSorted, if_neg hab]
      have hba : jsStrLe b a = true := (jsStrLe_total a b).resolve_left hab
      have htail := ih (List.chain'_cons'.mp h).2
      apply List.chain'_cons'.mpr
      refine ⟨?_, htail⟩
      intro c hc
      rcases insertSorted_head_cases a bs with hh | hh
      · rw [hh] at hc
        simp only [Option.mem_def, Option.some_inj] at hc
        subst hc
        exact hba
      · rw [hh] at hc
        exact (List.chain'_cons'.mp h).1 c hc

theorem insertSorted_perm (a : JStr) (l : List JStr) :
    List.Perm (insertSorted a l) (a :: l) := by
  induction l with
  | nil => exact List.Perm.refl _
  | cons b bs ih =>
    by_cases h : jsStrLe a b = true
    · rw [insertSorted, if_pos h]
    · rw [insertSorted, if_neg h]
      exact (ih.cons b).trans (List.Perm.swap a b bs)

theorem sortNames_perm (l : List JStr) : List.Perm (sortNames l) l := by
  induction l with
  | nil => exact List.Perm.refl _
  | cons a rest ih =>
    rw [sortNames]
    exact (insertSorted_perm a (sortNames rest)).trans (ih.cons a)

theorem sortNames_chain (l : List JStr) :
    List.Chain' (fun x y => jsStrLe x y = true) (sortNames l) := by
  induction l with
  | nil => simp [sortNames]
  | cons a rest ih =>
    rw [sortNames]
    exact chain_insertSorted ih

/-- C6: a directory directly containing a SKILL.md file is one
directory-backed skill candidate and is never recursed into (a leaf even with
subdirectories); in any other directory, the scan is exactly: every immediate
subdirectory scanned, in case-sensitive sorted order (the sorted listing is a
sorted permutation of the raw listing), followed — only afterwards — by an
archive-registration attempt for every sibling `.zip`/`.skill` file, so every
directory-backed registration event in that directory precedes every archive
attempt there. -/
theorem C6_scan_leaf_and_order (fuel : Nat) (directory : JStr) (entries : List Entry) :
    (hasSkillMdFile entries = true →
      scanGo (fuel + 1) directory entries = [ScanEvent.dirSkill directory]) ∧
    (hasSkillMdFile entries = false →
      scanGo (fuel + 1) directory entries =
        (sortNames (entries.map entryName)).flatMap (fun n =>
          match findEntry entries n with
          | some (Entry.dir _ ch2) => scanGo fuel (joinP directory n) ch2
          | _ => []) ++
        (sortNames (entries.map entryName)).flatMap (fun n =>
          match findEntry entries n with
          | some (Entry.file _ _) =>
            if isZipFile (joinP directory n) then [ScanEvent.zipTry (joinP directory n)]
            else []
          | _ => [])) ∧
    List.Perm (sortNames (entries.map entryName)) (entries.map entryName) ∧
    List.Chain' (fun x y => jsStrLe x y = true) (sortNames (entries.map entryName)) := by
  refine ⟨?_, ?_, sortNames_perm _, sortNames_chain _⟩
  · intro h
    rw [scanGo, if_pos h]
  · intro h
    rw [scanGo, if_neg (by rw [h]; simp), dirsLoop_eq_flatMap, zipsLoop_eq_flatMap]

/-- Witness for C6 at a concrete tree: both subdirectories (in sorted order)
register before the sibling archive is attempted. -/
theorem C6_scan_leaf_and_order_witness :
    scanGo (1 + 1) (js ("/root")) demoEntries =
      [ScanEvent.dirSkill (js ("/root/a")), ScanEvent.dirSkill (js ("/root/b")),
        ScanEvent.zipTry (js ("/root/a.zip"))] := by
  have h := (C6_scan_leaf_and_order 1 (js ("/root")) demoEntries).2.1 (by decide)
  rw [h]
  decide
